import Mathlib

/-!
# Qt Creator C++ quick fix: AST path resolution and the quick-fix collector

A shallow embedding of `src/plugins/cppeditor/cppquickfix.cpp`:

* `ASTPath` (the visitor that maps a cursor position to the chain of enclosing
  syntax nodes), with its per-node test `preVisit` and its entry point
  `operator()`;
* `QuickFixOperation` (the token position helpers `getTokenStartPosition`,
  `getTokenEndPosition`, the two `cursor` functions, `moveAtStartOfToken`,
  `moveAtEndOfToken`);
* `CPPQuickFixCollector` (`startCompletion`, `completions`, `complete`,
  `cleanup`).

Token indices, lines and columns are C++ `unsigned` values; they are embedded as
natural numbers.  The only subtraction in `preVisit`, `lastToken - 1`, happens
under the guard `lastToken > firstToken > 0`, where it cannot wrap.  The
arithmetic of the `QuickFixOperation` helpers is unguarded and is embedded with
explicit wrap-around modulo `2 ^ 32` (`usub`, `uadd`).
-/

namespace CppQuickFix

/-! ## Data model -/

/-- A syntax node: the index of its first token, one past the index of its last
token, and its children in source order.  The `kind` field stands for the
node's dynamic class and lets distinct nodes with equal spans be told apart. -/
inductive AST where
  | node (kind : Nat) (firstToken : Nat) (lastToken : Nat) (children : List AST) : AST
  deriving Repr

namespace AST

/-- Kind tag of a node. -/
def kind : AST → Nat
  | node k _ _ _ => k

/-- Index of the first token of the node (`AST::firstToken`). -/
def firstToken : AST → Nat
  | node _ f _ _ => f

/-- One past the index of the last token of the node (`AST::lastToken`). -/
def lastToken : AST → Nat
  | node _ _ l _ => l

/-- Children of the node, in the order the visitor walks them. -/
def children : AST → List AST
  | node _ _ _ cs => cs

end AST

/-- The part of `TranslationUnit` the visitor reads: the line/column of the
start and of the end of each token, and the root of the syntax tree (a null
pointer when nothing was parsed). -/
structure TranslationUnit where
  getTokenStartPosition : Nat → Nat × Nat
  getTokenEndPosition : Nat → Nat × Nat
  ast : Option AST

/-- A parsed document (`Document::Ptr` target). -/
structure Document where
  translationUnit : TranslationUnit

/-- The part of `QTextCursor` read by the code: zero-based block (line) number
and zero-based column number. -/
structure QTextCursor where
  blockNumber : Nat
  columnNumber : Nat
  deriving DecidableEq, Repr

/-! ## ASTPath -/

/-- State of the `ASTPath` visitor object. -/
structure ASTPath where
  _doc : Document
  _line : Nat
  _column : Nat
  _nodes : List AST

namespace ASTPath

/-- Constructor `ASTPath(Document::Ptr doc)`. -/
def mk0 (doc : Document) : ASTPath :=
  { _doc := doc, _line := 0, _column := 0, _nodes := [] }

/-- The visitor hook `ASTPath::preVisit`: returns the updated visitor and the
boolean the traversal uses to decide whether to descend. -/
def preVisit (self : ASTPath) (ast : AST) : ASTPath × Bool :=
  let firstToken := ast.firstToken
  let lastToken := ast.lastToken
  if firstToken > 0 ∧ lastToken > firstToken then
    let (startLine, startColumn) := self._doc.translationUnit.getTokenStartPosition firstToken
    if self._line > startLine ∨ (self._line = startLine ∧ self._column ≥ startColumn) then
      let (endLine, endColumn) := self._doc.translationUnit.getTokenEndPosition (lastToken - 1)
      if self._line < endLine ∨ (self._line = endLine ∧ self._column < endColumn) then
        ({ self with _nodes := self._nodes ++ [ast] }, true)
      else (self, false)
    else (self, false)
  else (self, false)

mutual
/-- Modelled from the spec: `ASTVisitor::accept` / `AST::accept` of the C++
front-end library, which is not part of the source file.  Section 4.2 step 4:
a node is offered to `preVisit`; when it answers true the children are visited
in order (pre-order), otherwise the whole subtree is skipped. -/
def accept (self : ASTPath) : AST → ASTPath
  | AST.node k f l cs =>
    match preVisit self (AST.node k f l cs) with
    | (self1, true) => acceptList self1 cs
    | (self1, false) => self1
/-- Modelled from the spec: the in-order visit of a node's children. -/
def acceptList (self : ASTPath) : List AST → ASTPath
  | [] => self
  | c :: cs => acceptList (accept self c) cs
end

/-- The call operator `ASTPath::operator()(const QTextCursor &)`: the updated
visitor and the returned copy of `_nodes`. -/
def call (self : ASTPath) (cursor : QTextCursor) : ASTPath × List AST :=
  let s1 := { self with _nodes := [] }
  let s2 := { s1 with _line := cursor.blockNumber + 1 }
  let s3 := { s2 with _column := cursor.columnNumber + 1 }
  let s4 := match s3._doc.translationUnit.ast with
    | some root => accept s3 root
    | none => s3
  (s4, s4._nodes)

end ASTPath

/-! ## Specification-side vocabulary for the resolver -/

/-- The per-node span test in the words of section 4.2, steps 1 to 3: the node
has a token span, the target is at or after the start of its first token, and
the target is strictly before the end of the token `lastToken - 1`. -/
def spanContains (tu : TranslationUnit) (line column : Nat) (ast : AST) : Prop :=
  (0 < ast.firstToken ∧ ast.firstToken < ast.lastToken) ∧
  (line > (tu.getTokenStartPosition ast.firstToken).1 ∨
    (line = (tu.getTokenStartPosition ast.firstToken).1 ∧
      column ≥ (tu.getTokenStartPosition ast.firstToken).2)) ∧
  (line < (tu.getTokenEndPosition (ast.lastToken - 1)).1 ∨
    (line = (tu.getTokenEndPosition (ast.lastToken - 1)).1 ∧
      column < (tu.getTokenEndPosition (ast.lastToken - 1)).2))

instance (tu : TranslationUnit) (line column : Nat) (ast : AST) :
    Decidable (spanContains tu line column ast) := by
  unfold spanContains; infer_instance

/-- Boolean form of `spanContains`, for filtering lists of nodes. -/
def passes (tu : TranslationUnit) (line column : Nat) (ast : AST) : Bool :=
  decide (spanContains tu line column ast)

mutual
/-- Plain pre-order listing of a tree: every node, paired with the list of its
ancestors (outermost first), parents before children and children in order. -/
def preorder (ancestors : List AST) : AST → List (List AST × AST)
  | AST.node k f l cs =>
    (ancestors, AST.node k f l cs) :: preorderList (ancestors ++ [AST.node k f l cs]) cs
/-- Pre-order listing of a list of sibling subtrees sharing the same ancestors. -/
def preorderList (ancestors : List AST) : List AST → List (List AST × AST)
  | [] => []
  | c :: cs => preorder ancestors c ++ preorderList ancestors cs
end

/-- The filter that keeps the entries of a pre-order listing whose node and
ancestors all satisfy the test. -/
def keep (p : AST → Bool) (e : List AST × AST) : Bool :=
  e.1.all p && p e.2

/-- The path in the words of the specification: the pre-order listing of the
nodes that pass the span test and all of whose ancestors pass it too. -/
def pathSpec (tu : TranslationUnit) (line column : Nat) : List AST :=
  match tu.ast with
  | none => []
  | some root => ((preorder [] root).filter (keep (passes tu line column))).map Prod.snd

mutual
/-- All nodes of a tree, in pre-order. -/
def AST.nodes : AST → List AST
  | AST.node k f l cs => AST.node k f l cs :: nodesList cs
/-- All nodes of a list of sibling subtrees. -/
def nodesList : List AST → List AST
  | [] => []
  | c :: cs => c.nodes ++ nodesList cs
end

/-- The node reached from `root` by following child indices. -/
def nodeAt : AST → List Nat → Option AST
  | n, [] => some n
  | n, i :: rest =>
    match n.children.get? i with
    | some c => nodeAt c rest
    | none => none

/-- The nodes met on the way from `root` down a list of child indices, the root
first. -/
def pathNodes : AST → List Nat → List AST
  | n, [] => [n]
  | n, i :: rest =>
    match n.children.get? i with
    | some c => n :: pathNodes c rest
    | none => [n]

/-- Token-span containment between two nodes: `a` starts no later and ends no
earlier than `b`. -/
def spanIncludes (a b : AST) : Prop :=
  a.firstToken ≤ b.firstToken ∧ a.lastToken ≥ b.lastToken

instance (a b : AST) : Decidable (spanIncludes a b) := by
  unfold spanIncludes; infer_instance

/-- Strict token-span containment: containment with a different span. -/
def spanStrictlyIncludes (a b : AST) : Prop :=
  spanIncludes a b ∧ (a.firstToken < b.firstToken ∨ b.lastToken < a.lastToken)

instance (a b : AST) : Decidable (spanStrictlyIncludes a b) := by
  unfold spanStrictlyIncludes; infer_instance

/-- The nesting rule of the data model: the token span of every node of the tree
contains the token spans of its children. -/
def wellNested (root : AST) : Prop :=
  ∀ n ∈ root.nodes, ∀ c ∈ n.children, spanIncludes n c

instance (root : AST) : Decidable (wellNested root) := by
  unfold wellNested; infer_instance

/-- The strict nesting rule: the token span of every node strictly contains the
token spans of its children. -/
def strictlyNested (root : AST) : Prop :=
  ∀ n ∈ root.nodes, ∀ c ∈ n.children, spanStrictlyIncludes n c

instance (root : AST) : Decidable (strictlyNested root) := by
  unfold strictlyNested; infer_instance

/-- No node of the tree has two children that both satisfy the test. -/
def exclusiveChildren (p : AST → Bool) (root : AST) : Prop :=
  ∀ n ∈ root.nodes, (n.children.filter p).length ≤ 1

instance (p : AST → Bool) (root : AST) : Decidable (exclusiveChildren p root) := by
  unfold exclusiveChildren; infer_instance

mutual
/-- Pruned pre-order walk under an arbitrary node test: a node failing the test
contributes nothing, a node passing it contributes itself followed by the walk
of its children. -/
def collect (p : AST → Bool) : AST → List AST
  | AST.node k f l cs =>
    if p (AST.node k f l cs) then AST.node k f l cs :: collectList p cs else []
/-- Pruned pre-order walk of a list of siblings. -/
def collectList (p : AST → Bool) : List AST → List AST
  | [] => []
  | c :: cs => collect p c ++ collectList p cs
end

/-! ## CPPQuickFixCollector -/

/-- A quick-fix operation as the collector sees it: its description, and a tag
`opId` standing for the identity of the object whose `apply` is invoked. -/
structure QuickFixOperation where
  description : String
  opId : Nat
  deriving DecidableEq, Repr

/-- The semantic info captured from the editor (`SemanticInfo`): the revision it
was computed for and the parsed document, which may be null. -/
structure SemanticInfo where
  revision : Int
  doc : Option Document

/-- The `CPPEditor` widget, as far as the collector reads it. -/
structure CPPEditor where
  semanticInfo : SemanticInfo
  documentRevision : Int
  textCursor : QTextCursor

/-- The `ITextEditable` handed to `startCompletion`.  The two `Q_ASSERT`s at the
head of that function are its precondition: the handle is not null and its
widget is a `CPPEditor`.  `position` is the editor's current position, a
non-negative offset. -/
structure ITextEditable where
  widget : CPPEditor
  position : Nat

/-- A completion item (`TextEditor::CompletionItem`): the shown text and the
`QVariant` payload, here the integer read back by `toInt`. -/
structure CompletionItem where
  text : String
  data : Int
  deriving DecidableEq, Repr

/-- State of a `CPPQuickFixCollector`: the editor pointer (null until
`startCompletion` runs) and the pending operations. -/
structure CPPQuickFixCollector where
  _editor : Option CPPEditor
  _quickFixes : List QuickFixOperation

/-- `QList<T>::at(i)`.  Qt requires `0 <= i < size()`; `none` stands for a call
that breaks this requirement (an out-of-range element access). -/
def QList.at {α : Type} (l : List α) (i : Int) : Option α :=
  if 0 ≤ i ∧ i < l.length then l.get? i.toNat else none

namespace CPPQuickFixCollector

/-- What one call of `startCompletion` does: the collector afterwards, the
returned integer, and the value of the local `path` when the `ASTPath` visitor
was constructed and run (`none` when it was not). -/
structure StartResult where
  self : CPPQuickFixCollector
  ret : Int
  path : Option (List AST)

/-- The constructor `CPPQuickFixCollector::CPPQuickFixCollector`. -/
def new : CPPQuickFixCollector :=
  { _editor := none, _quickFixes := [] }

/-- `CPPQuickFixCollector::startCompletion`. -/
def startCompletion (self : CPPQuickFixCollector) (editable : ITextEditable) : StartResult :=
  let editor := editable.widget
  let self1 : CPPQuickFixCollector := { self with _editor := some editor }
  let info := editor.semanticInfo
  if info.revision ≠ editor.documentRevision then
    { self := self1, ret := -1, path := none }
  else
    match info.doc with
    | some doc =>
      let astPath := ASTPath.mk0 doc
      let path := (ASTPath.call astPath editor.textCursor).2
      if ¬ self1._quickFixes.isEmpty then
        { self := self1, ret := (editable.position : Int), path := some path }
      else
        { self := self1, ret := -1, path := some path }
    | none => { self := self1, ret := -1, path := none }

/-- The loop of `CPPQuickFixCollector::completions`, from index `i`, with `fuel`
bounding the remaining iterations. -/
def completionsLoop (quickFixes : List QuickFixOperation) :
    Nat → Nat → List CompletionItem → List CompletionItem
  | 0, _, out => out
  | fuel + 1, i, out =>
    if (i : Int) < quickFixes.length then
      match QList.at quickFixes i with
      | some op =>
        completionsLoop quickFixes fuel (i + 1)
          (out ++ [{ text := op.description, data := (i : Int) }])
      | none => out
    else out

/-- `CPPQuickFixCollector::completions`: the collector afterwards and the output
list afterwards. -/
def completions (self : CPPQuickFixCollector) (quickFixItems : List CompletionItem) :
    CPPQuickFixCollector × List CompletionItem :=
  (self, completionsLoop self._quickFixes self._quickFixes.length 0 quickFixItems)

/-- What one call of `complete` does. -/
inductive CompleteOutcome where
  | applied (op : QuickFixOperation) (cursor : QTextCursor) : CompleteOutcome
  | ignored : CompleteOutcome
  | invalidAccess (index : Int) : CompleteOutcome
  | nullEditor : CompleteOutcome
  deriving DecidableEq, Repr

/-- `CPPQuickFixCollector::complete`: `applied op c` when `op->apply(c)` is
invoked, `ignored` when the guard is false, `invalidAccess i` when
`_quickFixes.at(i)` is called with an index outside the list, `nullEditor` when
`_editor` is dereferenced while null. -/
def complete (self : CPPQuickFixCollector) (item : CompletionItem) : CompleteOutcome :=
  let index : Int := item.data
  if index < self._quickFixes.length then
    match QList.at self._quickFixes index with
    | some quickFix =>
      match self._editor with
      | some editor => CompleteOutcome.applied quickFix editor.textCursor
      | none => CompleteOutcome.nullEditor
    | none => CompleteOutcome.invalidAccess index
  else CompleteOutcome.ignored

/-- `CPPQuickFixCollector::cleanup`. -/
def cleanup (self : CPPQuickFixCollector) : CPPQuickFixCollector :=
  { self with _quickFixes := [] }

end CPPQuickFixCollector

/-- The items `completions` is specified to append: one per pending operation,
in order, showing its description and carrying its index. -/
def itemsOf (quickFixes : List QuickFixOperation) : List CompletionItem :=
  quickFixes.enum.map (fun e => { text := e.2.description, data := (e.1 : Int) })

/-! ## Sample documents and trees -/

/-- A one-line sample document of `count` one-character tokens separated by
single blanks: token `i` (from 1) starts at column `2 * i - 1` and ends at
column `2 * i`; indices past `count` read the last token. -/
def lineOfTokens (count : Nat) (root : Option AST) : TranslationUnit :=
  { getTokenStartPosition := fun i => (1, 2 * min i count - 1),
    getTokenEndPosition := fun i => (1, 2 * min i count),
    ast := root }

/-- Sample tree: a root over tokens 1 to 4 with two children whose token spans
overlap. -/
def overlapTree : AST :=
  AST.node 0 1 5 [AST.node 1 1 3 [], AST.node 2 2 4 []]

/-- The childless nodes of a tree that pass the span test at the target. -/
def leavesContaining (tu : TranslationUnit) (line column : Nat) (root : AST) : List AST :=
  root.nodes.filter (fun n => n.children.isEmpty && passes tu line column n)

/-- Sample tree: a root whose only child has the same token span. -/
def sameSpanTree : AST :=
  AST.node 0 1 3 [AST.node 1 1 3 []]

/-- Sample tree: strictly nested, with two children of the root whose token
spans overlap; only the first has a leaf under the target. -/
def foreignTree : AST :=
  AST.node 0 1 5 [AST.node 1 1 3 [AST.node 2 1 2 []], AST.node 3 1 4 [AST.node 4 3 4 []]]

/-- Sample tree: a root whose first token is the sentinel index 0, over a leaf
with a proper span. -/
def sentinelRootTree : AST :=
  AST.node 0 0 3 [AST.node 1 1 2 []]

/-- Sample tree: strictly nested spans with disjoint siblings. -/
def nestedTree : AST :=
  AST.node 0 1 5 [AST.node 1 1 3 [AST.node 2 2 3 []], AST.node 3 3 5 []]

/-- Sample tree made only of nodes without a token span. -/
def spanlessTree : AST :=
  AST.node 0 0 0 [AST.node 1 3 3 [], AST.node 2 4 2 []]

/-- Sample visitor over the four-token document and `nestedTree`, aimed at the
given line and column. -/
def sampleVisitor (line column : Nat) : ASTPath :=
  { _doc := { translationUnit := lineOfTokens 4 (some nestedTree) },
    _line := line, _column := column, _nodes := [] }

/-- The scaffold operation `HelloQuickFixOp`: description "Hello", and an `apply`
that does nothing. -/
def HelloQuickFixOp : QuickFixOperation :=
  { description := "Hello", opId := 0 }

/-- Sample editor with the given semantic-info revision, document revision and
parsed document; its cursor is on line 1, column 3. -/
def sampleEditor (infoRevision documentRevision : Int) (doc : Option Document) : CPPEditor :=
  { semanticInfo := { revision := infoRevision, doc := doc },
    documentRevision := documentRevision,
    textCursor := { blockNumber := 0, columnNumber := 2 } }

/-! ## QuickFixOperation: token positions and cursors -/

/-- Modulus of the C++ type `unsigned` (32 bits). -/
def unsignedModulus : Nat := 2 ^ 32

/-- Subtraction in the C++ type `unsigned`: the result wraps around modulo
`2 ^ 32`. -/
def usub (a b : Nat) : Nat :=
  (a + unsignedModulus - b % unsignedModulus) % unsignedModulus

/-- Addition in the C++ type `unsigned`: the result wraps around modulo
`2 ^ 32`. -/
def uadd (a b : Nat) : Nat :=
  (a + b) % unsignedModulus

/-- A token as `QuickFixOperation` reads it: `begin_` is the value of
`Token::begin()`, `end_` the value of `Token::end()` and `length` the field
`f.length`.  The accessors belong to the C++ front-end library, so the three
values are taken as given. -/
structure Token where
  begin_ : Nat
  end_ : Nat
  length : Nat
  deriving DecidableEq, Repr

/-- What a `QuickFixOperation` object reads through `_doc` and `_textCursor`:
the translation unit of its document (its token start and end positions, its
tokens, its map from offsets to line and column) and, for the text document of
its cursor, the position of the block with a given number
(`findBlockByNumber(k).position()`, converted to `unsigned` as the code's
arithmetic does). -/
structure OperationContext where
  unit : TranslationUnit
  tokenAt : Nat → Token
  getPosition : Nat → Nat × Nat
  blockPosition : Nat → Nat

/-- The part of a returned `QTextCursor` that the helpers set: the anchor and
the position (the head of the selection); the two coincide for a cursor
without selection.  Each is kept as the `unsigned` value the code computes
before handing it to `setPosition`. -/
structure TextSelection where
  anchor : Nat
  position : Nat
  deriving DecidableEq, Repr

namespace QuickFixOperation

/-- `QuickFixOperation::tokenAt`. -/
def tokenAt (self : OperationContext) (index : Nat) : Token :=
  self.tokenAt index

/-- `QuickFixOperation::getTokenStartPosition`. -/
def getTokenStartPosition (self : OperationContext) (index : Nat) : Nat × Nat :=
  self.getPosition (tokenAt self index).begin_

/-- `QuickFixOperation::getTokenEndPosition`. -/
def getTokenEndPosition (self : OperationContext) (index : Nat) : Nat × Nat :=
  self.getPosition (tokenAt self index).end_

/-- `QuickFixOperation::cursor(AST *)`: the selection from the start of the
node's first token to the end of its last token. -/
def cursor (self : OperationContext) (ast : AST) : TextSelection :=
  let startPos := self.unit.getTokenStartPosition ast.firstToken
  let endPos := self.unit.getTokenEndPosition (usub ast.lastToken 1)
  { anchor := usub (uadd (self.blockPosition (usub startPos.1 1)) startPos.2) 1,
    position := usub (uadd (self.blockPosition (usub endPos.1 1)) endPos.2) 1 }

/-- `QuickFixOperation::cursor(unsigned index)`: the selection over one token.
The head is `tc.position() + tk.f.length`, an addition of two `int`s; a
position is kept as the `unsigned` value of that `int`, on which the addition
is the addition modulo `2 ^ 32`. -/
def cursorIndex (self : OperationContext) (index : Nat) : TextSelection :=
  let tk := tokenAt self index
  let pos := getTokenStartPosition self index
  let start := usub (uadd (self.blockPosition (usub pos.1 1)) pos.2) 1
  { anchor := start, position := uadd start tk.length }

/-- `QuickFixOperation::moveAtStartOfToken`. -/
def moveAtStartOfToken (self : OperationContext) (index : Nat) : TextSelection :=
  let pos := getTokenStartPosition self index
  let p := usub (uadd (self.blockPosition (usub pos.1 1)) pos.2) 1
  { anchor := p, position := p }

/-- `QuickFixOperation::moveAtEndOfToken`. -/
def moveAtEndOfToken (self : OperationContext) (index : Nat) : TextSelection :=
  let tk := tokenAt self index
  let pos := getTokenStartPosition self index
  let p := usub (uadd (uadd (self.blockPosition (usub pos.1 1)) pos.2) tk.length) 1
  { anchor := p, position := p }

end QuickFixOperation

/-- A sample context over a one-line text whose only block starts at offset 0:
offset `o` is at line 1, column `o + 1`; token 1 is the three characters at
offsets 4 to 6, every other index reads an empty token at offset 0. -/
def oneLineContext : OperationContext :=
  { unit := lineOfTokens 4 none,
    tokenAt := fun i => if i = 1 then { begin_ := 4, end_ := 7, length := 3 }
      else { begin_ := 0, end_ := 0, length := 0 },
    getPosition := fun o => (1, o + 1),
    blockPosition := fun _ => 0 }

/-! ## Text order and call sequences -/

/-- Text order on positions: `a` is at or before `b`. -/
def posLe (a b : Nat × Nat) : Prop :=
  a.1 < b.1 ∨ (a.1 = b.1 ∧ a.2 ≤ b.2)

/-- Text order on positions: `a` is strictly before `b`. -/
def posLt (a b : Nat × Nat) : Prop :=
  a.1 < b.1 ∨ (a.1 = b.1 ∧ a.2 < b.2)

/-- Token positions follow the token order: a token with a smaller or equal index
starts no later, ends no later, and starts no later than the other ends. -/
def tokensOrdered (tu : TranslationUnit) : Prop :=
  ∀ i j, i ≤ j →
    posLe (tu.getTokenStartPosition i) (tu.getTokenStartPosition j) ∧
    posLe (tu.getTokenEndPosition i) (tu.getTokenEndPosition j) ∧
    posLe (tu.getTokenStartPosition i) (tu.getTokenEndPosition j)

/-- One call on a collector. -/
inductive CollectorCall where
  | startCompletion (editable : ITextEditable) : CollectorCall
  | completions (quickFixItems : List CompletionItem) : CollectorCall
  | complete (item : CompletionItem) : CollectorCall
  | cleanup : CollectorCall

/-- The collector after one call; `none` when the call does not return normally
(an element access outside the list, or a null `_editor` dereferenced, inside
`complete`). -/
def stepCollector (self : CPPQuickFixCollector) : CollectorCall → Option CPPQuickFixCollector
  | CollectorCall.startCompletion editable =>
    some (CPPQuickFixCollector.startCompletion self editable).self
  | CollectorCall.completions quickFixItems =>
    some (CPPQuickFixCollector.completions self quickFixItems).1
  | CollectorCall.complete item =>
    match CPPQuickFixCollector.complete self item with
    | CPPQuickFixCollector.CompleteOutcome.applied _ _ => some self
    | CPPQuickFixCollector.CompleteOutcome.ignored => some self
    | CPPQuickFixCollector.CompleteOutcome.invalidAccess _ => none
    | CPPQuickFixCollector.CompleteOutcome.nullEditor => none
  | CollectorCall.cleanup => some (CPPQuickFixCollector.cleanup self)

/-- The collector after a sequence of calls, each returning normally. -/
def runCollector : CPPQuickFixCollector → List CollectorCall → Option CPPQuickFixCollector
  | self, [] => some self
  | self, call :: rest =>
    match stepCollector self call with
    | some next => runCollector next rest
    | none => none

/-! ## The scenario document and further samples -/

/-- The tokens of the one-line document `int f(){ return 0; }`, by token index:
the one-based column of the first character and the length.  Index 0 is the
sentinel; then `int`, `f`, `(`, `)`, `{`, `return`, `0`, `;`, `}`. -/
def scenarioTokens : List (Nat × Nat) :=
  [(0, 0), (1, 3), (5, 1), (6, 1), (7, 1), (8, 1), (10, 6), (17, 1), (18, 1), (20, 1)]

/-- The scenario document, with the end of a token one past its last character
(start column plus length). -/
def scenarioUnit (root : Option AST) : TranslationUnit :=
  { getTokenStartPosition := fun i => (1, (scenarioTokens.getD i (0, 0)).1),
    getTokenEndPosition := fun i =>
      (1, (scenarioTokens.getD i (0, 0)).1 + (scenarioTokens.getD i (0, 0)).2),
    ast := root }

/-- The scenario document under the other reading of a token end: the column of
the last character (start column plus length minus one). -/
def scenarioUnitInclusive (root : Option AST) : TranslationUnit :=
  { getTokenStartPosition := fun i => (1, (scenarioTokens.getD i (0, 0)).1),
    getTokenEndPosition := fun i =>
      (1, (scenarioTokens.getD i (0, 0)).1 + (scenarioTokens.getD i (0, 0)).2 - 1),
    ast := root }

/-- Scenario tree: the numeric literal `0` (token 7). -/
def numericLiteral : AST := AST.node 4 7 8 []

/-- Scenario tree: the return statement `return 0;` (tokens 6 to 8). -/
def returnStatement : AST := AST.node 3 6 9 [numericLiteral]

/-- Scenario tree: the compound statement `{ return 0; }` (tokens 5 to 9). -/
def compoundStatement : AST := AST.node 2 5 10 [returnStatement]

/-- Scenario tree: the function definition (tokens 1 to 9). -/
def functionDefinition : AST := AST.node 1 1 10 [compoundStatement]

/-- Scenario tree: the translation unit (tokens 1 to 9). -/
def translationUnitNode : AST := AST.node 0 1 10 [functionDefinition]

/-- An operation context over the scenario document: one block at offset 0, a
token at column `c` begins at offset `c - 1`. -/
def scenarioContext : OperationContext :=
  { unit := scenarioUnit (some translationUnitNode),
    tokenAt := fun i =>
      { begin_ := (scenarioTokens.getD i (0, 0)).1 - 1,
        end_ := (scenarioTokens.getD i (0, 0)).1 - 1 + (scenarioTokens.getD i (0, 0)).2,
        length := (scenarioTokens.getD i (0, 0)).2 },
    getPosition := fun o => (1, o + 1),
    blockPosition := fun _ => 0 }

/-- Sample tree: a translation unit of two function declarations, over tokens 1
to 2 and 3 to 4. -/
def twoFunctions : AST :=
  AST.node 0 1 5 [AST.node 1 1 3 [AST.node 2 2 3 []], AST.node 1 3 5 [AST.node 2 4 5 []]]

/-- A sample sequence of calls: a resolution with matching revisions and the
cursor inside a node, a listing, a selection of index 0, and a cleanup. -/
def sampleCalls : List CollectorCall :=
  [CollectorCall.startCompletion
      ⟨sampleEditor 4 4 (some ⟨lineOfTokens 4 (some nestedTree)⟩), 7⟩,
    CollectorCall.completions [],
    CollectorCall.complete ⟨"Hello", 0⟩,
    CollectorCall.cleanup]

/-! # Theorems -/

/-! ## Auxiliary facts about the visitor -/

/-- `preVisit` is a single conditional on the span test. -/
theorem preVisit_eq (self : ASTPath) (ast : AST) :
    ASTPath.preVisit self ast =
      if spanContains self._doc.translationUnit self._line self._column ast then
        ({ self with _nodes := self._nodes ++ [ast] }, true)
      else (self, false) := by
  unfold ASTPath.preVisit spanContains
  simp only []
  split_ifs <;> first | rfl | (exfalso; tauto)

mutual
theorem accept_eq (self : ASTPath) : ∀ n : AST,
    ASTPath.accept self n =
      { self with _nodes :=
          (self._nodes ++ collect (passes self._doc.translationUnit self._line self._column) n) }
  | AST.node k f l cs => by
    rw [ASTPath.accept, preVisit_eq, collect]
    by_cases h : spanContains self._doc.translationUnit self._line self._column
        (AST.node k f l cs)
    · have hp : passes self._doc.translationUnit self._line self._column
          (AST.node k f l cs) = true := by
        simp [passes, h]
      simp only [h, hp, if_true]
      rw [acceptList_eq]
      simp
    · have hp : passes self._doc.translationUnit self._line self._column
          (AST.node k f l cs) = false := by
        simp [passes, h]
      simp [h, hp]
theorem acceptList_eq (self : ASTPath) : ∀ cs : List AST,
    ASTPath.acceptList self cs =
      { self with _nodes :=
          (self._nodes ++
            collectList (passes self._doc.translationUnit self._line self._column) cs) }
  | [] => by simp [ASTPath.acceptList, collectList]
  | c :: cs => by
    rw [ASTPath.acceptList, accept_eq, acceptList_eq, collectList]
    simp
end

/-- The sequence returned by the call operator is the pruned pre-order walk of
the root under the span test at the cursor's one-based line and column. -/
theorem call_result (self : ASTPath) (cursor : QTextCursor) :
    (ASTPath.call self cursor).2 =
      match self._doc.translationUnit.ast with
      | none => []
      | some root =>
        collect (passes self._doc.translationUnit (cursor.blockNumber + 1)
          (cursor.columnNumber + 1)) root := by
  unfold ASTPath.call
  simp only []
  cases h : self._doc.translationUnit.ast with
  | none => rfl
  | some root => simp [accept_eq]

/-- The call operator never changes the document the visitor is bound to. -/
theorem call_doc (self : ASTPath) (cursor : QTextCursor) :
    (ASTPath.call self cursor).1._doc = self._doc := by
  unfold ASTPath.call
  simp only []
  cases h : self._doc.translationUnit.ast with
  | none => rfl
  | some root => simp [accept_eq]

mutual
theorem filter_preorder_of_blocked (p : AST → Bool) (anc : List AST) (h : anc.all p = false) :
    ∀ n : AST, (preorder anc n).filter (keep p) = []
  | AST.node k f l cs => by
    have h2 : (anc ++ [AST.node k f l cs]).all p = false := by
      rw [List.all_append, h]; rfl
    rw [preorder, List.filter_cons, filter_preorderList_of_blocked p _ h2 cs]
    simp [keep, h]
theorem filter_preorderList_of_blocked (p : AST → Bool) (anc : List AST)
    (h : anc.all p = false) :
    ∀ cs : List AST, (preorderList anc cs).filter (keep p) = []
  | [] => by simp [preorderList]
  | c :: cs => by
    rw [preorderList, List.filter_append, filter_preorder_of_blocked p anc h c,
      filter_preorderList_of_blocked p anc h cs]
    rfl
end

mutual
theorem filter_preorder_eq_collect (p : AST → Bool) (anc : List AST) (h : anc.all p = true) :
    ∀ n : AST, ((preorder anc n).filter (keep p)).map Prod.snd = collect p n
  | AST.node k f l cs => by
    rw [preorder, collect, List.filter_cons]
    by_cases hp : p (AST.node k f l cs) = true
    · have h2 : (anc ++ [AST.node k f l cs]).all p = true := by
        rw [List.all_append, h]; simp [hp]
      have hk : keep p (anc, AST.node k f l cs) = true := by simp only [keep, h, hp]; rfl
      rw [if_pos hk, if_pos hp, List.map_cons, filter_preorderList_eq_collectList p _ h2 cs]
    · have hp2 : p (AST.node k f l cs) = false := by simpa using hp
      have h2 : (anc ++ [AST.node k f l cs]).all p = false := by
        rw [List.all_append, h]; simp [hp2]
      have hk : keep p (anc, AST.node k f l cs) = false := by simp only [keep, h, hp2]; rfl
      rw [hk, filter_preorderList_of_blocked p _ h2 cs]
      simp [hp2]
theorem filter_preorderList_eq_collectList (p : AST → Bool) (anc : List AST)
    (h : anc.all p = true) :
    ∀ cs : List AST, ((preorderList anc cs).filter (keep p)).map Prod.snd = collectList p cs
  | [] => by simp [preorderList, collectList]
  | c :: cs => by
    rw [preorderList, collectList, List.filter_append, List.map_append,
      filter_preorder_eq_collect p anc h c, filter_preorderList_eq_collectList p anc h cs]
end

/-! ## Auxiliary facts about trees and the pruned walk -/

theorem collect_of_fails (p : AST → Bool) (n : AST) (h : p n = false) : collect p n = [] := by
  cases n with
  | node k f l cs => rw [collect, h]; rfl

theorem collect_of_passes (p : AST → Bool) (n : AST) (h : p n = true) :
    collect p n = n :: collectList p n.children := by
  cases n with
  | node k f l cs => rw [collect, if_pos h]; rfl

theorem self_mem_nodes (n : AST) : n ∈ n.nodes := by
  cases n with
  | node k f l cs => rw [AST.nodes]; exact List.mem_cons_self _ _

mutual
theorem AST.all_of_children {P : AST → Prop} (step : ∀ n : AST, (∀ c ∈ n.children, P c) → P n) :
    ∀ n : AST, P n
  | AST.node k f l cs => step (AST.node k f l cs) (AST.all_of_children_list step cs)
theorem AST.all_of_children_list {P : AST → Prop}
    (step : ∀ n : AST, (∀ c ∈ n.children, P c) → P n) :
    ∀ cs : List AST, ∀ c ∈ cs, P c
  | [] => fun c hc => absurd hc (List.not_mem_nil c)
  | x :: xs => fun c hc => by
    rcases List.mem_cons.mp hc with h | h
    · rw [h]; exact AST.all_of_children step x
    · exact AST.all_of_children_list step xs c h
end

theorem nodes_subset_nodesList (cs : List AST) (c : AST) (hc : c ∈ cs) :
    ∀ m ∈ c.nodes, m ∈ nodesList cs := by
  induction cs with
  | nil => exact absurd hc (List.not_mem_nil c)
  | cons x xs ih =>
    intro m hm
    rw [nodesList, List.mem_append]
    rcases List.mem_cons.mp hc with h | h
    · left; rw [← h]; exact hm
    · right; exact ih h m hm

theorem nodes_of_child (n c : AST) (hc : c ∈ n.children) : ∀ m ∈ c.nodes, m ∈ n.nodes := by
  cases n with
  | node k f l cs =>
    intro m hm
    rw [AST.nodes]
    exact List.mem_cons_of_mem _ (nodes_subset_nodesList cs c hc m hm)

theorem collectList_of_all_fail (p : AST → Bool) (cs : List AST)
    (h : ∀ c ∈ cs, p c = false) : collectList p cs = [] := by
  induction cs with
  | nil => rfl
  | cons x xs ih =>
    rw [collectList, collect_of_fails p x (h x (List.mem_cons_self _ _)),
      ih (fun c hc => h c (List.mem_cons_of_mem _ hc))]
    rfl

/-- When at most one sibling passes the test and the sibling at index `i` does,
the walk of the siblings is the walk of that one. -/
theorem collectList_of_unique (p : AST → Bool) (cs : List AST)
    (hex : (cs.filter p).length ≤ 1) (i : Nat) (c : AST) (hc : cs.get? i = some c)
    (hp : p c = true) : collectList p cs = collect p c := by
  induction cs generalizing i with
  | nil => simp at hc
  | cons x xs ih =>
    cases i with
    | zero =>
      simp at hc
      subst hc
      rw [List.filter_cons, if_pos hp] at hex
      have hnil : xs.filter p = [] := by
        apply List.eq_nil_of_length_eq_zero
        rw [List.length_cons] at hex
        omega
      have hall : ∀ y ∈ xs, p y = false := by
        intro y hy
        by_contra hne
        have : y ∈ xs.filter p := List.mem_filter.mpr ⟨hy, by simpa using hne⟩
        rw [hnil] at this
        exact absurd this (List.not_mem_nil y)
      rw [collectList, collectList_of_all_fail p xs hall, List.append_nil]
    | succ j =>
      simp at hc
      have hmem : c ∈ xs.filter p := List.mem_filter.mpr ⟨List.getElem?_mem hc, hp⟩
      have hpos : 0 < (xs.filter p).length := List.length_pos_of_mem hmem
      have hx : p x = false := by
        by_contra hne
        have hx1 : p x = true := by simpa using hne
        rw [List.filter_cons, if_pos hx1, List.length_cons] at hex
        omega
      rw [List.filter_cons, hx] at hex
      rw [collectList, collect_of_fails p x hx, List.nil_append]
      exact ih (by simpa using hex) j (by simpa using hc)

theorem collectList_cases (p : AST → Bool) (cs : List AST) (hex : (cs.filter p).length ≤ 1) :
    collectList p cs = [] ∨ ∃ c ∈ cs, p c = true ∧ collectList p cs = collect p c := by
  by_cases hall : ∀ c ∈ cs, p c = false
  · left; exact collectList_of_all_fail p cs hall
  · right
    push_neg at hall
    obtain ⟨c, hc, hpc⟩ := hall
    have hp : p c = true := by simpa using hpc
    obtain ⟨i, hi⟩ := List.get?_of_mem hc
    exact ⟨c, hc, hp, collectList_of_unique p cs hex i c hi hp⟩

theorem pathNodes_head (n : AST) (path : List Nat) : ∃ t, pathNodes n path = n :: t := by
  cases path with
  | nil => exact ⟨[], rfl⟩
  | cons i rest =>
    rw [pathNodes]
    cases n.children.get? i with
    | none => exact ⟨[], rfl⟩
    | some c => exact ⟨pathNodes c rest, rfl⟩

theorem collect_head (p : AST → Bool) (n : AST) : ∀ y ∈ (collect p n).head?, y = n := by
  intro y hy
  cases hp : p n with
  | false => rw [collect_of_fails p n hp] at hy; simp at hy
  | true => rw [collect_of_passes p n hp] at hy; simp at hy; exact hy.symm

/-- When no node has two passing children, the pruned walk is a chain in which
every element is the parent of the next. -/
theorem collect_chain_of_exclusive (p : AST → Bool) (R : AST → AST → Prop) :
    ∀ n : AST, (∀ m ∈ n.nodes, ∀ c ∈ m.children, R m c) → exclusiveChildren p n →
      List.Chain' R (collect p n) := by
  apply AST.all_of_children
  intro n ih hnest hex
  cases hp : p n with
  | false => rw [collect_of_fails p n hp]; exact List.chain'_nil
  | true =>
    rw [collect_of_passes p n hp]
    rcases collectList_cases p n.children (hex n (self_mem_nodes n)) with h | ⟨c, hc, _, h⟩
    · rw [h]; exact List.chain'_singleton n
    · rw [h, List.chain'_cons']
      refine ⟨?_, ?_⟩
      · intro y hy
        rw [collect_head p c y hy]
        exact hnest n (self_mem_nodes n) c hc
      · exact ih c hc (fun m hm => hnest m (nodes_of_child n c hc m hm))
          (fun m hm => hex m (nodes_of_child n c hc m hm))

theorem collect_eq_pathNodes (p : AST → Bool) :
    ∀ (path : List Nat) (root leaf : AST), nodeAt root path = some leaf → leaf.children = [] →
      exclusiveChildren p root → (∀ a ∈ pathNodes root path, p a = true) →
      collect p root = pathNodes root path := by
  intro path
  induction path with
  | nil =>
    intro root leaf hleaf hno _ hin
    simp only [nodeAt, Option.some.injEq] at hleaf
    subst hleaf
    rw [collect_of_passes p root (hin root (by simp [pathNodes])), hno]
    rfl
  | cons i rest ih =>
    intro root leaf hleaf hno hex hin
    rw [nodeAt] at hleaf
    rw [pathNodes] at hin ⊢
    cases hc : root.children.get? i with
    | none => rw [hc] at hleaf; simp at hleaf
    | some c =>
      rw [hc] at hleaf hin
      simp only [] at hleaf hin ⊢
      have hproot : p root = true := hin root (List.mem_cons_self _ _)
      obtain ⟨t, ht⟩ := pathNodes_head c rest
      have hpc : p c = true := hin c (by rw [ht]; simp)
      have hcmem : c ∈ root.children := List.get?_mem hc
      rw [collect_of_passes p root hproot,
        collectList_of_unique p root.children (hex root (self_mem_nodes root)) i c hc hpc,
        ih c leaf hleaf hno (fun m hm => hex m (nodes_of_child root c hcmem m hm))
          (fun a ha => hin a (List.mem_cons_of_mem _ ha))]

theorem pathNodes_length (path : List Nat) :
    ∀ (root leaf : AST), nodeAt root path = some leaf →
      (pathNodes root path).length = path.length + 1 := by
  induction path with
  | nil => intro root leaf _; rfl
  | cons i rest ih =>
    intro root leaf hleaf
    rw [nodeAt] at hleaf
    rw [pathNodes]
    cases hc : root.children.get? i with
    | none => rw [hc] at hleaf; simp at hleaf
    | some c =>
      rw [hc] at hleaf
      simp only [List.length_cons]
      rw [ih c leaf hleaf]

theorem pathNodes_getLast (path : List Nat) :
    ∀ (root leaf : AST), nodeAt root path = some leaf →
      (pathNodes root path).getLast? = some leaf := by
  induction path with
  | nil =>
    intro root leaf hleaf
    simp only [nodeAt, Option.some.injEq] at hleaf
    subst hleaf
    rfl
  | cons i rest ih =>
    intro root leaf hleaf
    rw [nodeAt] at hleaf
    rw [pathNodes]
    cases hc : root.children.get? i with
    | none => rw [hc] at hleaf; simp at hleaf
    | some c =>
      rw [hc] at hleaf
      simp only [] at hleaf ⊢
      obtain ⟨t, ht⟩ := pathNodes_head c rest
      have := ih c leaf hleaf
      rw [ht] at this ⊢
      rw [List.getLast?_cons_cons]
      exact this

theorem pathNodes_chain (R : AST → AST → Prop) (path : List Nat) :
    ∀ root : AST, (∀ m ∈ root.nodes, ∀ c ∈ m.children, R m c) →
      List.Chain' R (pathNodes root path) := by
  induction path with
  | nil => intro root _; exact List.chain'_singleton root
  | cons i rest ih =>
    intro root hnest
    rw [pathNodes]
    cases hc : root.children.get? i with
    | none => exact List.chain'_singleton root
    | some c =>
      simp only []
      have hcmem : c ∈ root.children := List.get?_mem hc
      obtain ⟨t, ht⟩ := pathNodes_head c rest
      have hch := ih c (fun m hm => hnest m (nodes_of_child root c hcmem m hm))
      rw [ht] at hch ⊢
      exact List.chain'_cons.mpr ⟨hnest root (self_mem_nodes root) c hcmem, hch⟩

/-! ## Auxiliary facts about the collector -/

theorem QList_at_natCast {α : Type} (l : List α) (i : Nat) : QList.at l (i : Int) = l.get? i := by
  unfold QList.at
  by_cases h : i < l.length
  · rw [if_pos ⟨Int.ofNat_nonneg i, by exact_mod_cast h⟩, Int.toNat_ofNat]
  · rw [if_neg (by rintro ⟨_, h2⟩; exact h (by exact_mod_cast h2))]
    simp at h
    simp
    exact h

theorem completionsLoop_eq (quickFixes : List QuickFixOperation) :
    ∀ (fuel i : Nat) (out : List CompletionItem), i + fuel = quickFixes.length →
      CPPQuickFixCollector.completionsLoop quickFixes fuel i out =
        out ++ ((quickFixes.drop i).enumFrom i).map
          (fun e => { text := e.2.description, data := (e.1 : Int) }) := by
  intro fuel
  induction fuel with
  | zero =>
    intro i out h
    have hi : quickFixes.length ≤ i := by omega
    rw [CPPQuickFixCollector.completionsLoop, List.drop_eq_nil_of_le hi]
    simp
  | succ fuel ih =>
    intro i out h
    have hi : i < quickFixes.length := by omega
    rw [CPPQuickFixCollector.completionsLoop, if_pos (by exact_mod_cast hi), QList_at_natCast,
      List.get?_eq_get hi]
    simp only []
    rw [ih (i + 1) _ (by omega), List.drop_eq_getElem_cons hi, List.enumFrom_cons,
      List.map_cons, List.append_assoc]
    rfl

/-- The output list of `completions` is the input list followed by `itemsOf` the
pending operations. -/
theorem completions_eq (self : CPPQuickFixCollector) (out : List CompletionItem) :
    (CPPQuickFixCollector.completions self out).2 = out ++ itemsOf self._quickFixes := by
  unfold CPPQuickFixCollector.completions itemsOf
  rw [completionsLoop_eq self._quickFixes self._quickFixes.length 0 out (by omega)]
  rfl

/-- `startCompletion` never writes to the pending operation list. -/
theorem startCompletion_keeps_list (self : CPPQuickFixCollector) (editable : ITextEditable) :
    (CPPQuickFixCollector.startCompletion self editable).self._quickFixes =
      self._quickFixes := by
  unfold CPPQuickFixCollector.startCompletion
  simp only []
  split_ifs <;> first | rfl | (cases editable.widget.semanticInfo.doc <;> rfl)

/-- The three behaviours of `complete`: an index inside the list applies the
operation found there, an index at or past the size is ignored, and a negative
index passes the guard and reaches `QList::at` outside the list. -/
theorem complete_cases (self : CPPQuickFixCollector) (item : CompletionItem) :
    (0 ≤ item.data → item.data < self._quickFixes.length →
      ∃ op, self._quickFixes.get? item.data.toNat = some op ∧
        CPPQuickFixCollector.complete self item =
          match self._editor with
          | some editor => CPPQuickFixCollector.CompleteOutcome.applied op editor.textCursor
          | none => CPPQuickFixCollector.CompleteOutcome.nullEditor) ∧
    ((self._quickFixes.length : Int) ≤ item.data →
      CPPQuickFixCollector.complete self item = CPPQuickFixCollector.CompleteOutcome.ignored) ∧
    (item.data < 0 →
      CPPQuickFixCollector.complete self item =
        CPPQuickFixCollector.CompleteOutcome.invalidAccess item.data) := by
  unfold CPPQuickFixCollector.complete QList.at
  simp only []
  refine ⟨?_, ?_, ?_⟩
  · intro h0 hn
    have hlt : item.data.toNat < self._quickFixes.length := by omega
    refine ⟨self._quickFixes.get ⟨item.data.toNat, hlt⟩, List.get?_eq_get hlt, ?_⟩
    rw [if_pos hn, if_pos ⟨h0, hn⟩, List.get?_eq_get hlt]
  · intro h
    rw [if_neg (by omega)]
  · intro h
    have hn : item.data < (self._quickFixes.length : Int) := by omega
    rw [if_pos hn, if_neg (by omega)]

/-! ## C1: the per-node test -/

/-- C1: `ASTPath::preVisit` appends the node and returns true exactly when the
node has a token span (`firstToken > 0`, `lastToken > firstToken`), the target
is at or after the start of token `firstToken`, and the target is strictly
before the end of token `lastToken - 1`; in every other case it returns false
and leaves the visitor (hence `_nodes`) untouched.  In particular a target
exactly at the start position is accepted when the end lies after it, and a
target exactly at the end position is rejected. -/
theorem preVisit_accepts_iff (self : ASTPath) (ast : AST) :
    (ASTPath.preVisit self ast = ({ self with _nodes := self._nodes ++ [ast] }, true) ↔
      ((0 < ast.firstToken ∧ ast.firstToken < ast.lastToken) ∧
        (self._line > (self._doc.translationUnit.getTokenStartPosition ast.firstToken).1 ∨
          (self._line = (self._doc.translationUnit.getTokenStartPosition ast.firstToken).1 ∧
            self._column ≥
              (self._doc.translationUnit.getTokenStartPosition ast.firstToken).2)) ∧
        (self._line < (self._doc.translationUnit.getTokenEndPosition (ast.lastToken - 1)).1 ∨
          (self._line = (self._doc.translationUnit.getTokenEndPosition (ast.lastToken - 1)).1 ∧
            self._column <
              (self._doc.translationUnit.getTokenEndPosition (ast.lastToken - 1)).2)))) ∧
    (ASTPath.preVisit self ast = ({ self with _nodes := self._nodes ++ [ast] }, true) ∨
      ASTPath.preVisit self ast = (self, false)) ∧
    ((0 < ast.firstToken ∧ ast.firstToken < ast.lastToken) →
      (self._line, self._column) =
        self._doc.translationUnit.getTokenStartPosition ast.firstToken →
      (self._line < (self._doc.translationUnit.getTokenEndPosition (ast.lastToken - 1)).1 ∨
        (self._line = (self._doc.translationUnit.getTokenEndPosition (ast.lastToken - 1)).1 ∧
          self._column <
            (self._doc.translationUnit.getTokenEndPosition (ast.lastToken - 1)).2)) →
      ASTPath.preVisit self ast = ({ self with _nodes := self._nodes ++ [ast] }, true)) ∧
    ((self._line, self._column) =
        self._doc.translationUnit.getTokenEndPosition (ast.lastToken - 1) →
      ASTPath.preVisit self ast = (self, false)) := by
  have key := preVisit_eq self ast
  unfold spanContains at key
  refine ⟨?_, ?_, ?_, ?_⟩
  · constructor
    · intro h
      by_contra hc
      rw [if_neg hc] at key
      rw [key] at h
      simp at h
    · intro h
      rw [if_pos h] at key
      exact key
  · by_cases hc : ((0 < ast.firstToken ∧ ast.firstToken < ast.lastToken) ∧
        (self._line > (self._doc.translationUnit.getTokenStartPosition ast.firstToken).1 ∨
          (self._line = (self._doc.translationUnit.getTokenStartPosition ast.firstToken).1 ∧
            self._column ≥
              (self._doc.translationUnit.getTokenStartPosition ast.firstToken).2)) ∧
        (self._line < (self._doc.translationUnit.getTokenEndPosition (ast.lastToken - 1)).1 ∨
          (self._line = (self._doc.translationUnit.getTokenEndPosition (ast.lastToken - 1)).1 ∧
            self._column <
              (self._doc.translationUnit.getTokenEndPosition (ast.lastToken - 1)).2)))
    · left; rw [key, if_pos hc]
    · right; rw [key, if_neg hc]
  · intro hspan hstart hend
    rw [key, if_pos]
    refine ⟨hspan, ?_, hend⟩
    right
    rw [← hstart]
    exact ⟨rfl, le_refl _⟩
  · intro hend
    rw [key, if_neg]
    rintro ⟨_, _, h3⟩
    rw [← hend] at h3
    simp at h3

/-- C1, at a concrete node: with token 2 spanning columns 3 to 4 of line 1, the
node over token 2 is accepted at (1, 3) and rejected at (1, 4). -/
theorem preVisit_accepts_iff_witness :
    ASTPath.preVisit (sampleVisitor 1 3) (AST.node 2 2 3 []) =
      ({ sampleVisitor 1 3 with _nodes := [AST.node 2 2 3 []] }, true) ∧
    ASTPath.preVisit (sampleVisitor 1 4) (AST.node 2 2 3 []) = (sampleVisitor 1 4, false) :=
  ⟨(preVisit_accepts_iff (sampleVisitor 1 3) (AST.node 2 2 3 [])).2.2.1 (by decide) rfl
      (by decide),
    (preVisit_accepts_iff (sampleVisitor 1 4) (AST.node 2 2 3 [])).2.2.2 rfl⟩

/-! ## C2: the returned sequence is the pruned pre-order listing -/

/-- C2: for every tree and target, the sequence returned by
`ASTPath::operator()` is exactly the pre-order listing of the nodes that pass
the span test and all of whose ancestors pass it too (so a node comes after its
ancestors, which are all listed, and nothing below a failing node is listed). -/
theorem call_eq_pathSpec (self : ASTPath) (cursor : QTextCursor) :
    (ASTPath.call self cursor).2 =
      pathSpec self._doc.translationUnit (cursor.blockNumber + 1) (cursor.columnNumber + 1) := by
  rw [call_result, pathSpec]
  cases self._doc.translationUnit.ast with
  | none => rfl
  | some root =>
    simp only []
    rw [filter_preorder_eq_collect _ [] rfl root]

/-! ## C3: containment between adjacent elements -/

/-- C3 as stated fails: `overlapTree` satisfies the nesting rule, yet at line 1,
column 3 both children of the root pass the span test, so the result is the
root followed by the two siblings, and the sibling over tokens 1 to 2 does not
contain the sibling over tokens 2 to 3. -/
theorem adjacent_containment_fails_on_overlap :
    wellNested overlapTree ∧
    ¬ List.Chain' (fun a b => a.firstToken ≤ b.firstToken ∧ a.lastToken ≥ b.lastToken)
        (ASTPath.call (ASTPath.mk0 ⟨lineOfTokens 4 (some overlapTree)⟩) ⟨0, 2⟩).2 := by
  refine ⟨by decide, ?_⟩
  have hres : (ASTPath.call (ASTPath.mk0 ⟨lineOfTokens 4 (some overlapTree)⟩) ⟨0, 2⟩).2 =
      [overlapTree, AST.node 1 1 3 [], AST.node 2 2 4 []] := by rfl
  rw [hres]
  intro h
  have h2 := (List.chain'_cons.mp (List.chain'_cons.mp h).2).1
  simp [AST.lastToken] at h2

/-- C3, amended: when the tree satisfies the nesting rule and no node has two
children that both pass the span test at the target, every pair of adjacent
elements `(a, b)` of the sequence returned by `ASTPath::operator()` satisfies
`a.firstToken <= b.firstToken` and `a.lastToken >= b.lastToken`. -/
theorem adjacent_containment (self : ASTPath) (cursor : QTextCursor)
    (hnest : ∀ root, self._doc.translationUnit.ast = some root → wellNested root)
    (hex : ∀ root, self._doc.translationUnit.ast = some root →
      exclusiveChildren
        (passes self._doc.translationUnit (cursor.blockNumber + 1) (cursor.columnNumber + 1))
        root) :
    List.Chain' (fun a b => a.firstToken ≤ b.firstToken ∧ a.lastToken ≥ b.lastToken)
      (ASTPath.call self cursor).2 := by
  rw [call_result]
  cases hroot : self._doc.translationUnit.ast with
  | none => exact List.chain'_nil
  | some root =>
    exact collect_chain_of_exclusive _ _ root (hnest root hroot) (hex root hroot)

/-- C3, amended, at a concrete tree: the three-element path through
`nestedTree` at line 1, column 3. -/
theorem adjacent_containment_witness :
    (ASTPath.call (ASTPath.mk0 ⟨lineOfTokens 4 (some nestedTree)⟩) ⟨0, 2⟩).2.length = 3 ∧
    List.Chain' (fun a b => a.firstToken ≤ b.firstToken ∧ a.lastToken ≥ b.lastToken)
      (ASTPath.call (ASTPath.mk0 ⟨lineOfTokens 4 (some nestedTree)⟩) ⟨0, 2⟩).2 :=
  ⟨rfl,
    adjacent_containment (ASTPath.mk0 ⟨lineOfTokens 4 (some nestedTree)⟩) ⟨0, 2⟩
      (by intro root h; cases h; decide) (by intro root h; cases h; decide)⟩

/-! ## C4: a target inside one leaf -/

/-- C4 as stated fails, in three ways.  In `sameSpanTree` the target lies in
exactly one leaf under one ancestor, and the result has two elements, but the
root's span equals the leaf's.  In `foreignTree`, which is strictly nested, the
target lies in exactly one leaf under two ancestors, but a sibling subtree
overlapping the leaf's parent passes the span test too and the result has four
elements.  In `sentinelRootTree`, which is strictly nested, the target lies in
exactly one leaf under one ancestor, but the root starts at the sentinel token
0, is rejected by `preVisit`, and the result is empty. -/
theorem leaf_path_claim_fails :
    (nodeAt sameSpanTree [0] = some (AST.node 1 1 3 []) ∧
      leavesContaining (lineOfTokens 2 (some sameSpanTree)) 1 1 sameSpanTree =
        [AST.node 1 1 3 []] ∧
      ¬ List.Chain' spanStrictlyIncludes
        (ASTPath.call (ASTPath.mk0 ⟨lineOfTokens 2 (some sameSpanTree)⟩) ⟨0, 0⟩).2) ∧
    (nodeAt foreignTree [0, 0] = some (AST.node 2 1 2 []) ∧
      leavesContaining (lineOfTokens 4 (some foreignTree)) 1 1 foreignTree =
        [AST.node 2 1 2 []] ∧
      strictlyNested foreignTree ∧
      (ASTPath.call (ASTPath.mk0 ⟨lineOfTokens 4 (some foreignTree)⟩) ⟨0, 0⟩).2.length ≠ 2 + 1) ∧
    (nodeAt sentinelRootTree [0] = some (AST.node 1 1 2 []) ∧
      leavesContaining (lineOfTokens 2 (some sentinelRootTree)) 1 1 sentinelRootTree =
        [AST.node 1 1 2 []] ∧
      strictlyNested sentinelRootTree ∧
      (ASTPath.call (ASTPath.mk0 ⟨lineOfTokens 2 (some sentinelRootTree)⟩) ⟨0, 0⟩).2.length
        ≠ 1 + 1) := by
  refine ⟨⟨rfl, rfl, ?_⟩, ⟨rfl, rfl, by decide, by decide⟩, ⟨rfl, rfl, by decide, by decide⟩⟩
  have hres : (ASTPath.call (ASTPath.mk0 ⟨lineOfTokens 2 (some sameSpanTree)⟩) ⟨0, 0⟩).2 =
      [sameSpanTree, AST.node 1 1 3 []] := by rfl
  rw [hres]
  intro h
  have h2 := (List.chain'_cons.mp h).1
  revert h2
  decide

/-- C4, amended: in a strictly nested tree in which no node has two children
passing the span test, for a target inside a leaf all of whose `K` ancestors
pass the span test too, `ASTPath::operator()` returns exactly the `K` ancestors
followed by the leaf: `K + 1` elements, the root first and the leaf last, each
element's span strictly containing the next one's. -/
theorem leaf_path_resolution (self : ASTPath) (cursor : QTextCursor) (root leaf : AST)
    (path : List Nat)
    (hroot : self._doc.translationUnit.ast = some root)
    (hleaf : nodeAt root path = some leaf)
    (hno : leaf.children = [])
    (hstrict : strictlyNested root)
    (hex : exclusiveChildren
      (passes self._doc.translationUnit (cursor.blockNumber + 1) (cursor.columnNumber + 1)) root)
    (hin : ∀ a ∈ pathNodes root path,
      spanContains self._doc.translationUnit (cursor.blockNumber + 1)
        (cursor.columnNumber + 1) a) :
    (ASTPath.call self cursor).2 = pathNodes root path ∧
    (ASTPath.call self cursor).2.length = path.length + 1 ∧
    (ASTPath.call self cursor).2.head? = some root ∧
    (ASTPath.call self cursor).2.getLast? = some leaf ∧
    List.Chain' spanStrictlyIncludes (ASTPath.call self cursor).2 := by
  have hres : (ASTPath.call self cursor).2 = pathNodes root path := by
    rw [call_result, hroot]
    exact collect_eq_pathNodes _ path root leaf hleaf hno hex
      (fun a ha => by simp [passes, hin a ha])
  rw [hres]
  refine ⟨rfl, pathNodes_length path root leaf hleaf, ?_, pathNodes_getLast path root leaf hleaf,
    pathNodes_chain _ path root hstrict⟩
  obtain ⟨t, ht⟩ := pathNodes_head root path
  rw [ht]
  rfl

/-- C4, amended, at a concrete tree: the leaf of `nestedTree` under two
ancestors, at line 1, column 3. -/
theorem leaf_path_resolution_witness :
    (ASTPath.call (ASTPath.mk0 ⟨lineOfTokens 4 (some nestedTree)⟩) ⟨0, 2⟩).2 =
      [nestedTree, AST.node 1 1 3 [AST.node 2 2 3 []], AST.node 2 2 3 []] ∧
    (ASTPath.call (ASTPath.mk0 ⟨lineOfTokens 4 (some nestedTree)⟩) ⟨0, 2⟩).2.length = 2 + 1 ∧
    List.Chain' spanStrictlyIncludes
      (ASTPath.call (ASTPath.mk0 ⟨lineOfTokens 4 (some nestedTree)⟩) ⟨0, 2⟩).2 :=
  have h := leaf_path_resolution (ASTPath.mk0 ⟨lineOfTokens 4 (some nestedTree)⟩) ⟨0, 2⟩
    nestedTree (AST.node 2 2 3 []) [0, 0] rfl rfl rfl (by decide) (by decide) (by decide)
  ⟨h.1, h.2.1, h.2.2.2.2⟩

/-! ## C5: no state leaks between calls -/

/-- C5: the result of `ASTPath::operator()` depends only on the document and
the cursor.  Calling it twice in a row with the same cursor gives the same
sequence, a call made earlier with another cursor does not change the result,
and neither do the contents the fields `_nodes`, `_line` and `_column` had
before the call. -/
theorem call_idempotent (self : ASTPath) (cursor earlier : QTextCursor)
    (nodes : List AST) (line column : Nat) :
    (ASTPath.call (ASTPath.call self cursor).1 cursor).2 = (ASTPath.call self cursor).2 ∧
    (ASTPath.call (ASTPath.call self earlier).1 cursor).2 = (ASTPath.call self cursor).2 ∧
    (ASTPath.call { self with _nodes := nodes, _line := line, _column := column } cursor).2 =
      (ASTPath.call self cursor).2 := by
  refine ⟨?_, ?_, ?_⟩
  · rw [call_result, call_result, call_doc]
  · rw [call_result, call_result, call_doc]
  · rw [call_result, call_result]

/-! ## C6: a target outside every node -/

/-- C6: when no node of the tree passes the span test at the target,
`ASTPath::operator()` returns the empty sequence.  This covers a tree made only
of nodes without a token span (`firstToken == 0` or `lastToken <= firstToken`)
and a target at or beyond the end position of every token of the document. -/
theorem call_empty_of_outside (self : ASTPath) (cursor : QTextCursor) :
    ((∀ root, self._doc.translationUnit.ast = some root → ∀ n ∈ root.nodes,
        ¬ spanContains self._doc.translationUnit (cursor.blockNumber + 1)
          (cursor.columnNumber + 1) n) →
      (ASTPath.call self cursor).2 = []) ∧
    ((∀ root, self._doc.translationUnit.ast = some root → ∀ n ∈ root.nodes,
        n.firstToken = 0 ∨ n.lastToken ≤ n.firstToken) →
      (ASTPath.call self cursor).2 = []) ∧
    ((∀ i, (self._doc.translationUnit.getTokenEndPosition i).1 < cursor.blockNumber + 1 ∨
        ((self._doc.translationUnit.getTokenEndPosition i).1 = cursor.blockNumber + 1 ∧
          (self._doc.translationUnit.getTokenEndPosition i).2 ≤ cursor.columnNumber + 1)) →
      (ASTPath.call self cursor).2 = []) := by
  have main : ∀ root, self._doc.translationUnit.ast = some root →
      ¬ spanContains self._doc.translationUnit (cursor.blockNumber + 1)
        (cursor.columnNumber + 1) root →
      (ASTPath.call self cursor).2 = [] := by
    intro root hroot hfail
    rw [call_result, hroot]
    exact collect_of_fails _ _ (by simp [passes, hfail])
  have noRoot : self._doc.translationUnit.ast = none → (ASTPath.call self cursor).2 = [] := by
    intro hnone
    rw [call_result, hnone]
  refine ⟨?_, ?_, ?_⟩
  · intro h
    cases hroot : self._doc.translationUnit.ast with
    | none => exact noRoot hroot
    | some root => exact main root hroot (h root hroot root (self_mem_nodes root))
  · intro h
    cases hroot : self._doc.translationUnit.ast with
    | none => exact noRoot hroot
    | some root =>
      apply main root hroot
      rintro ⟨⟨h1, h2⟩, _, _⟩
      rcases h root hroot root (self_mem_nodes root) with h0 | h0 <;> omega
  · intro h
    cases hroot : self._doc.translationUnit.ast with
    | none => exact noRoot hroot
    | some root =>
      apply main root hroot
      rintro ⟨_, _, h3⟩
      rcases h (root.lastToken - 1) with h0 | ⟨h0, h1⟩ <;> omega

/-- C6, at concrete inputs: a cursor on line 2 of a one-line document, a tree of
span-less nodes, and a cursor past the last token of the line. -/
theorem call_empty_of_outside_witness :
    (ASTPath.call (ASTPath.mk0 ⟨lineOfTokens 4 (some nestedTree)⟩) ⟨1, 0⟩).2 = [] ∧
    (ASTPath.call (ASTPath.mk0 ⟨lineOfTokens 4 (some spanlessTree)⟩) ⟨0, 2⟩).2 = [] ∧
    (ASTPath.call (ASTPath.mk0 ⟨lineOfTokens 4 (some nestedTree)⟩) ⟨0, 7⟩).2 = [] :=
  ⟨(call_empty_of_outside (ASTPath.mk0 ⟨lineOfTokens 4 (some nestedTree)⟩) ⟨1, 0⟩).1
      (by intro root h; cases h; decide),
    (call_empty_of_outside (ASTPath.mk0 ⟨lineOfTokens 4 (some spanlessTree)⟩) ⟨0, 2⟩).2.1
      (by intro root h; cases h; decide),
    (call_empty_of_outside (ASTPath.mk0 ⟨lineOfTokens 4 (some nestedTree)⟩) ⟨0, 7⟩).2.2
      (by
        intro i
        right
        refine ⟨rfl, ?_⟩
        show 2 * min i 4 ≤ 8
        omega)⟩

/-! ## C7: stale semantic info -/

/-- C7: when the revision of the captured semantic info differs from the
revision of the live document, `startCompletion` returns -1, never constructs
or runs `ASTPath`, and leaves the pending operation list as it was. -/
theorem startCompletion_stale (self : CPPQuickFixCollector) (editable : ITextEditable)
    (hstale : editable.widget.semanticInfo.revision ≠ editable.widget.documentRevision) :
    (CPPQuickFixCollector.startCompletion self editable).ret = -1 ∧
    (CPPQuickFixCollector.startCompletion self editable).path = none ∧
    (CPPQuickFixCollector.startCompletion self editable).self._quickFixes = self._quickFixes := by
  unfold CPPQuickFixCollector.startCompletion
  simp only []
  rw [if_pos hstale]
  exact ⟨rfl, rfl, rfl⟩

/-- C7, at a concrete state: semantic info of revision 3 against a document at
revision 4. -/
theorem startCompletion_stale_witness :
    (CPPQuickFixCollector.startCompletion ⟨none, [HelloQuickFixOp]⟩
        ⟨sampleEditor 3 4 (some ⟨lineOfTokens 4 (some nestedTree)⟩), 7⟩).ret = -1 ∧
    (CPPQuickFixCollector.startCompletion ⟨none, [HelloQuickFixOp]⟩
        ⟨sampleEditor 3 4 (some ⟨lineOfTokens 4 (some nestedTree)⟩), 7⟩).path = none ∧
    (CPPQuickFixCollector.startCompletion ⟨none, [HelloQuickFixOp]⟩
        ⟨sampleEditor 3 4 (some ⟨lineOfTokens 4 (some nestedTree)⟩), 7⟩).self._quickFixes =
      [HelloQuickFixOp] :=
  startCompletion_stale ⟨none, [HelloQuickFixOp]⟩
    ⟨sampleEditor 3 4 (some ⟨lineOfTokens 4 (some nestedTree)⟩), 7⟩ (by decide)

/-! ## C8: a position is returned only with pending operations -/

/-- C9, evaluated: with two pending operations, the index -1 passes the guard
`index < _quickFixes.size()` and `_quickFixes.at(-1)` is called outside the
list, whereas the index 5 is ignored and the index 1 applies the second
operation with the editor's cursor. -/
theorem complete_negative_index_accesses_list :
    CPPQuickFixCollector.complete
        ⟨some (sampleEditor 1 1 none), [HelloQuickFixOp, ⟨"World", 1⟩]⟩ ⟨"", -1⟩ =
      CPPQuickFixCollector.CompleteOutcome.invalidAccess (-1) ∧
    CPPQuickFixCollector.complete
        ⟨some (sampleEditor 1 1 none), [HelloQuickFixOp, ⟨"World", 1⟩]⟩ ⟨"", 5⟩ =
      CPPQuickFixCollector.CompleteOutcome.ignored ∧
    CPPQuickFixCollector.complete
        ⟨some (sampleEditor 1 1 none), [HelloQuickFixOp, ⟨"World", 1⟩]⟩ ⟨"", 1⟩ =
      CPPQuickFixCollector.CompleteOutcome.applied ⟨"World", 1⟩ ⟨0, 2⟩ := by
  decide

/-! ## C10: the listing produced by `completions` -/

/-- C10: `completions` leaves the pending list unchanged and appends exactly one
item per pending operation to the output list, whose earlier items stay in
place; the `i`-th appended item shows the description of the `i`-th pending
operation and carries `i`, and handing a listed item back to `complete` selects
the operation whose description it shows. -/
theorem completions_lists_operations (self : CPPQuickFixCollector)
    (out : List CompletionItem) :
    (CPPQuickFixCollector.completions self out).1._quickFixes = self._quickFixes ∧
    (CPPQuickFixCollector.completions self out).2.length =
      out.length + self._quickFixes.length ∧
    (CPPQuickFixCollector.completions self out).2.take out.length = out ∧
    (∀ (i : Nat) (op : QuickFixOperation), self._quickFixes.get? i = some op →
      (CPPQuickFixCollector.completions self out).2.get? (out.length + i) =
        some { text := op.description, data := (i : Int) }) ∧
    (∀ (i : Nat) (item : CompletionItem),
      (CPPQuickFixCollector.completions self out).2.get? (out.length + i) = some item →
      ∃ op, self._quickFixes.get? i = some op ∧ item.text = op.description ∧
        QList.at self._quickFixes item.data = some op ∧
        CPPQuickFixCollector.complete self item =
          match self._editor with
          | some editor => CPPQuickFixCollector.CompleteOutcome.applied op editor.textCursor
          | none => CPPQuickFixCollector.CompleteOutcome.nullEditor) := by
  have hitem : ∀ i : Nat, (itemsOf self._quickFixes).get? i =
      (self._quickFixes.get? i).map
        (fun op => ({ text := op.description, data := (i : Int) } : CompletionItem)) := by
    intro i
    unfold itemsOf
    simp only [List.get?_eq_getElem?, List.getElem?_map, List.getElem?_enum, Option.map_map]
    rfl
  have hget : ∀ i : Nat, (CPPQuickFixCollector.completions self out).2.get? (out.length + i) =
      (self._quickFixes.get? i).map
        (fun op => ({ text := op.description, data := (i : Int) } : CompletionItem)) := by
    intro i
    rw [completions_eq, ← hitem i, List.get?_eq_getElem?, List.get?_eq_getElem?,
      List.getElem?_append_right (by omega)]
    congr 1
    omega
  refine ⟨rfl, ?_, ?_, ?_, ?_⟩
  · rw [completions_eq, List.length_append]
    simp [itemsOf]
  · rw [completions_eq, List.take_left]
  · intro i op hop
    rw [hget i, hop]
    rfl
  · intro i item hitem2
    rw [hget i] at hitem2
    cases hop : self._quickFixes.get? i with
    | none => rw [hop] at hitem2; simp at hitem2
    | some op =>
      rw [hop] at hitem2
      simp only [Option.map_some', Option.some.injEq] at hitem2
      subst hitem2
      have hat : QList.at self._quickFixes (i : Int) = some op := by
        rw [QList_at_natCast, hop]
      have hlt : i < self._quickFixes.length := by
        by_contra hge
        rw [List.get?_eq_none.mpr (by omega)] at hop
        simp at hop
      refine ⟨op, rfl, rfl, hat, ?_⟩
      unfold CPPQuickFixCollector.complete
      simp only []
      rw [if_pos (by exact_mod_cast hlt), hat]

/-- C10, at a concrete state: two pending operations appended after one item
already in the list. -/
theorem completions_lists_operations_witness :
    (CPPQuickFixCollector.completions ⟨none, [HelloQuickFixOp, ⟨"World", 1⟩]⟩
        [⟨"kept", 9⟩]).2 = [⟨"kept", 9⟩, ⟨"Hello", 0⟩, ⟨"World", 1⟩] ∧
    (CPPQuickFixCollector.completions ⟨none, [HelloQuickFixOp, ⟨"World", 1⟩]⟩
        [⟨"kept", 9⟩]).2.get? (1 + 1) = some ⟨"World", 1⟩ :=
  ⟨by decide,
    (completions_lists_operations ⟨none, [HelloQuickFixOp, ⟨"World", 1⟩]⟩
      [⟨"kept", 9⟩]).2.2.2.1 1 ⟨"World", 1⟩ rfl⟩

/-! ## Auxiliary facts about unsigned arithmetic -/

theorem usub_one (a : Nat) (h1 : 1 ≤ a) (h2 : a ≤ 2 ^ 32) : usub a 1 = a - 1 := by
  unfold usub unsignedModulus
  norm_num
  omega

theorem uadd_of_lt (a b : Nat) (h : a + b < 2 ^ 32) : uadd a b = a + b := by
  unfold uadd unsignedModulus
  exact Nat.mod_eq_of_lt h

/-! ## C11: `cleanup` -/

/-- C11: after `cleanup` the pending operation list is empty; a following
`completions` appends nothing to its output list, a following `complete` with
a non-negative index applies no operation (it is ignored), and `cleanup` is
idempotent. -/
theorem cleanup_clears (self : CPPQuickFixCollector) (out : List CompletionItem)
    (item : CompletionItem) :
    (CPPQuickFixCollector.cleanup self)._quickFixes = [] ∧
    (CPPQuickFixCollector.completions (CPPQuickFixCollector.cleanup self) out).2 = out ∧
    (0 ≤ item.data →
      CPPQuickFixCollector.complete (CPPQuickFixCollector.cleanup self) item =
        CPPQuickFixCollector.CompleteOutcome.ignored) ∧
    CPPQuickFixCollector.cleanup (CPPQuickFixCollector.cleanup self) =
      CPPQuickFixCollector.cleanup self := by
  refine ⟨rfl, ?_, ?_, rfl⟩
  · rw [completions_eq]
    simp [CPPQuickFixCollector.cleanup, itemsOf]
  · intro h
    exact (complete_cases (CPPQuickFixCollector.cleanup self) item).2.1
      (by simpa [CPPQuickFixCollector.cleanup] using h)

/-- C11, at a concrete state: two pending operations are cleared, the listing
adds nothing and index 0 is ignored. -/
theorem cleanup_clears_witness :
    (CPPQuickFixCollector.completions
        (CPPQuickFixCollector.cleanup ⟨none, [HelloQuickFixOp, ⟨"World", 1⟩]⟩)
        [⟨"kept", 9⟩]).2 = [⟨"kept", 9⟩] ∧
    CPPQuickFixCollector.complete
        (CPPQuickFixCollector.cleanup ⟨none, [HelloQuickFixOp, ⟨"World", 1⟩]⟩) ⟨"Hello", 0⟩ =
      CPPQuickFixCollector.CompleteOutcome.ignored :=
  ⟨(cleanup_clears ⟨none, [HelloQuickFixOp, ⟨"World", 1⟩]⟩ [⟨"kept", 9⟩] ⟨"Hello", 0⟩).2.1,
    (cleanup_clears ⟨none, [HelloQuickFixOp, ⟨"World", 1⟩]⟩ [⟨"kept", 9⟩] ⟨"Hello", 0⟩).2.2.1
      (by decide)⟩

/-! ## C12: the end of a token -/

/-- C12 as stated fails: for the token of `oneLineContext` that begins at offset
4 and has length 3, `moveAtEndOfToken` gives offset 7, which is `4 + 3` and not
`4 + 3 - 1`. -/
theorem moveAtEndOfToken_not_last_character :
    (QuickFixOperation.tokenAt oneLineContext 1).begin_ = 4 ∧
    (QuickFixOperation.tokenAt oneLineContext 1).length = 3 ∧
    (QuickFixOperation.moveAtEndOfToken oneLineContext 1).position = 7 ∧
    (QuickFixOperation.moveAtEndOfToken oneLineContext 1).position ≠ 4 + 3 - 1 := by
  decide

/-- C12, amended: `getTokenEndPosition(i)` is the line and column of the offset
`Token::end()` of token `i`; and when token `i` begins at offset `b`, at the
one-based position `(line, col)` of a block starting at `b - (col - 1)`, and
has length `n`, `moveAtEndOfToken(i)` is the position `b + n`, one past the
token's last character (all offsets being valid `int` positions). -/
theorem token_end_is_exclusive (self : OperationContext) (i : Nat)
    (hline : 1 ≤ (QuickFixOperation.getTokenStartPosition self i).1)
    (hlineMax : (QuickFixOperation.getTokenStartPosition self i).1 < 2 ^ 32)
    (hcol : 1 ≤ (QuickFixOperation.getTokenStartPosition self i).2)
    (hbegin : self.blockPosition ((QuickFixOperation.getTokenStartPosition self i).1 - 1) +
      ((QuickFixOperation.getTokenStartPosition self i).2 - 1) =
        (QuickFixOperation.tokenAt self i).begin_)
    (hfit : (QuickFixOperation.tokenAt self i).begin_ +
      (QuickFixOperation.tokenAt self i).length < 2 ^ 31) :
    QuickFixOperation.getTokenEndPosition self i =
      self.getPosition (QuickFixOperation.tokenAt self i).end_ ∧
    (QuickFixOperation.moveAtEndOfToken self i).position =
      (QuickFixOperation.tokenAt self i).begin_ + (QuickFixOperation.tokenAt self i).length ∧
    (QuickFixOperation.moveAtEndOfToken self i).anchor =
      (QuickFixOperation.moveAtEndOfToken self i).position := by
  refine ⟨rfl, ?_, rfl⟩
  unfold QuickFixOperation.moveAtEndOfToken
  simp only []
  rw [usub_one _ hline (by omega),
    uadd_of_lt (self.blockPosition ((QuickFixOperation.getTokenStartPosition self i).1 - 1))
      (QuickFixOperation.getTokenStartPosition self i).2 (by omega),
    uadd_of_lt _ _ (by omega), usub_one _ (by omega) (by omega)]
  omega

/-- C12, amended, at a concrete token: offset 4, length 3, end position 7. -/
theorem token_end_is_exclusive_witness :
    (QuickFixOperation.moveAtEndOfToken oneLineContext 1).position = 4 + 3 :=
  (token_end_is_exclusive oneLineContext 1 (by decide) (by decide) (by decide) (by decide)
    (by decide)).2.1

/-! ## C13: the token helpers -/

/-- C13: for a token whose start position is the one-based `(line, col)` and
whose length is `n`, with `blockPos(k)` the offset of block `k`:
`moveAtStartOfToken` is the zero-length position `blockPos(line-1) + col - 1`,
`moveAtEndOfToken` is the zero-length position `blockPos(line-1) + col - 1 + n`,
and `cursor(index)` is the selection from the first to the second, so that
head minus anchor is `n` (all offsets being valid `int` positions). -/
theorem token_cursor_offsets (self : OperationContext) (i : Nat)
    (hline : 1 ≤ (QuickFixOperation.getTokenStartPosition self i).1)
    (hlineMax : (QuickFixOperation.getTokenStartPosition self i).1 < 2 ^ 32)
    (hcol : 1 ≤ (QuickFixOperation.getTokenStartPosition self i).2)
    (hfit : self.blockPosition ((QuickFixOperation.getTokenStartPosition self i).1 - 1) +
      (QuickFixOperation.getTokenStartPosition self i).2 +
        (QuickFixOperation.tokenAt self i).length < 2 ^ 31) :
    ((QuickFixOperation.moveAtStartOfToken self i).position =
        self.blockPosition ((QuickFixOperation.getTokenStartPosition self i).1 - 1) +
          (QuickFixOperation.getTokenStartPosition self i).2 - 1 ∧
      (QuickFixOperation.moveAtStartOfToken self i).anchor =
        (QuickFixOperation.moveAtStartOfToken self i).position) ∧
    ((QuickFixOperation.moveAtEndOfToken self i).position =
        self.blockPosition ((QuickFixOperation.getTokenStartPosition self i).1 - 1) +
          (QuickFixOperation.getTokenStartPosition self i).2 - 1 +
            (QuickFixOperation.tokenAt self i).length ∧
      (QuickFixOperation.moveAtEndOfToken self i).anchor =
        (QuickFixOperation.moveAtEndOfToken self i).position) ∧
    ((QuickFixOperation.cursorIndex self i).anchor =
        (QuickFixOperation.moveAtStartOfToken self i).position ∧
      (QuickFixOperation.cursorIndex self i).position =
        (QuickFixOperation.moveAtEndOfToken self i).position ∧
      (QuickFixOperation.cursorIndex self i).position -
        (QuickFixOperation.cursorIndex self i).anchor =
          (QuickFixOperation.tokenAt self i).length) := by
  have hstart : usub (uadd (self.blockPosition
        (usub (QuickFixOperation.getTokenStartPosition self i).1 1))
        (QuickFixOperation.getTokenStartPosition self i).2) 1 =
      self.blockPosition ((QuickFixOperation.getTokenStartPosition self i).1 - 1) +
        (QuickFixOperation.getTokenStartPosition self i).2 - 1 := by
    rw [usub_one _ hline (by omega), uadd_of_lt _ _ (by omega),
      usub_one _ (by omega) (by omega)]
  have hend : usub (uadd (uadd (self.blockPosition
        (usub (QuickFixOperation.getTokenStartPosition self i).1 1))
        (QuickFixOperation.getTokenStartPosition self i).2)
        (QuickFixOperation.tokenAt self i).length) 1 =
      self.blockPosition ((QuickFixOperation.getTokenStartPosition self i).1 - 1) +
        (QuickFixOperation.getTokenStartPosition self i).2 - 1 +
          (QuickFixOperation.tokenAt self i).length := by
    rw [usub_one _ hline (by omega),
      uadd_of_lt (self.blockPosition ((QuickFixOperation.getTokenStartPosition self i).1 - 1))
        (QuickFixOperation.getTokenStartPosition self i).2 (by omega),
      uadd_of_lt _ _ (by omega), usub_one _ (by omega) (by omega)]
    omega
  have hhead : (QuickFixOperation.cursorIndex self i).position =
      self.blockPosition ((QuickFixOperation.getTokenStartPosition self i).1 - 1) +
        (QuickFixOperation.getTokenStartPosition self i).2 - 1 +
          (QuickFixOperation.tokenAt self i).length := by
    unfold QuickFixOperation.cursorIndex
    simp only []
    rw [hstart, uadd_of_lt _ _ (by omega)]
  have hanchor : (QuickFixOperation.cursorIndex self i).anchor =
      self.blockPosition ((QuickFixOperation.getTokenStartPosition self i).1 - 1) +
        (QuickFixOperation.getTokenStartPosition self i).2 - 1 := hstart
  have hs : (QuickFixOperation.moveAtStartOfToken self i).position =
      self.blockPosition ((QuickFixOperation.getTokenStartPosition self i).1 - 1) +
        (QuickFixOperation.getTokenStartPosition self i).2 - 1 := hstart
  have he : (QuickFixOperation.moveAtEndOfToken self i).position =
      self.blockPosition ((QuickFixOperation.getTokenStartPosition self i).1 - 1) +
        (QuickFixOperation.getTokenStartPosition self i).2 - 1 +
          (QuickFixOperation.tokenAt self i).length := hend
  refine ⟨⟨hs, rfl⟩, ⟨he, rfl⟩, ?_, ?_, ?_⟩
  · rw [hanchor, hs]
  · rw [hhead, he]
  · rw [hhead, hanchor]
    omega

/-- C13, at a concrete token: the token of `oneLineContext` at offsets 4 to 6
gives the positions 4 and 7 and the selection from 4 to 7. -/
theorem token_cursor_offsets_witness :
    (QuickFixOperation.moveAtStartOfToken oneLineContext 1).position = 4 ∧
    (QuickFixOperation.moveAtEndOfToken oneLineContext 1).position = 7 ∧
    QuickFixOperation.cursorIndex oneLineContext 1 = { anchor := 4, position := 7 } :=
  have h := token_cursor_offsets oneLineContext 1 (by decide) (by decide) (by decide)
    (by decide)
  ⟨h.1.1, h.2.1.1, by decide⟩

/-! ## Further facts about the pruned walk -/

theorem mem_collectList (p : AST → Bool) (cs : List AST) (m : AST)
    (hm : m ∈ collectList p cs) : ∃ c ∈ cs, m ∈ collect p c := by
  induction cs with
  | nil => rw [collectList] at hm; exact absurd hm (List.not_mem_nil m)
  | cons x xs ih =>
    rw [collectList, List.mem_append] at hm
    rcases hm with h | h
    · exact ⟨x, List.mem_cons_self _ _, h⟩
    · obtain ⟨c, hc, hmc⟩ := ih h
      exact ⟨c, List.mem_cons_of_mem _ hc, hmc⟩

theorem collect_all_pass (p : AST → Bool) : ∀ n : AST, ∀ m ∈ collect p n, p m = true := by
  apply AST.all_of_children
  intro n ih m hm
  cases hp : p n with
  | false => rw [collect_of_fails p n hp] at hm; exact absurd hm (List.not_mem_nil m)
  | true =>
    rw [collect_of_passes p n hp] at hm
    rcases List.mem_cons.mp hm with h | h
    · rw [h]; exact hp
    · obtain ⟨c, hc, hmc⟩ := mem_collectList p n.children m h
      exact ih c hc m hmc

theorem collectList_eq_nil (p : AST → Bool) (cs : List AST) (h : collectList p cs = []) :
    ∀ c ∈ cs, p c = false := by
  induction cs with
  | nil => intro c hc; exact absurd hc (List.not_mem_nil c)
  | cons x xs ih =>
    rw [collectList] at h
    obtain ⟨h1, h2⟩ := List.append_eq_nil.mp h
    intro c hc
    rcases List.mem_cons.mp hc with hcx | hcx
    · rw [hcx]
      cases hp : p x with
      | false => rfl
      | true => rw [collect_of_passes p x hp] at h1; exact absurd h1 (List.cons_ne_nil _ _)
    · exact ih h2 c hcx

theorem collectList_last (p : AST → Bool) (Q : AST → Prop) (cs : List AST)
    (h : ∀ c ∈ cs, ∀ last, (collect p c).getLast? = some last → Q last) :
    ∀ last, (collectList p cs).getLast? = some last → Q last := by
  induction cs with
  | nil => intro last hl; rw [collectList] at hl; simp at hl
  | cons x xs ih =>
    intro last hl
    rw [collectList] at hl
    by_cases hnil : collectList p xs = []
    · rw [hnil, List.append_nil] at hl
      exact h x (List.mem_cons_self _ _) last hl
    · rw [List.getLast?_append_of_ne_nil _ hnil] at hl
      exact ih (fun c hc => h c (List.mem_cons_of_mem _ hc)) last hl

theorem collect_last_children_fail (p : AST → Bool) :
    ∀ n : AST, ∀ last, (collect p n).getLast? = some last → ∀ c ∈ last.children, p c = false := by
  apply AST.all_of_children
  intro n ih last hl
  cases hp : p n with
  | false => rw [collect_of_fails p n hp] at hl; simp at hl
  | true =>
    rw [collect_of_passes p n hp] at hl
    by_cases hnil : collectList p n.children = []
    · rw [hnil] at hl
      simp at hl
      rw [← hl]
      exact collectList_eq_nil p n.children hnil
    · have hl2 : (collectList p n.children).getLast? = some last := by
        rw [← hl]
        exact (List.getLast?_append_of_ne_nil [n] hnil).symm
      exact collectList_last p (fun l => ∀ c ∈ l.children, p c = false) n.children ih last hl2

/-! ## C16: the first and the last element -/

/-- C16: when `ASTPath::operator()` returns a non-empty sequence, its first
element is the root of the tree, and its last element passes the span test
while none of the children of the last element does. -/
theorem last_is_innermost (self : ASTPath) (cursor : QTextCursor)
    (hne : (ASTPath.call self cursor).2 ≠ []) :
    (ASTPath.call self cursor).2.head? = self._doc.translationUnit.ast ∧
    (∀ last, (ASTPath.call self cursor).2.getLast? = some last →
      spanContains self._doc.translationUnit (cursor.blockNumber + 1)
        (cursor.columnNumber + 1) last ∧
      ∀ c ∈ last.children,
        ¬ spanContains self._doc.translationUnit (cursor.blockNumber + 1)
          (cursor.columnNumber + 1) c) := by
  rw [call_result] at hne ⊢
  cases hroot : self._doc.translationUnit.ast with
  | none => rw [hroot] at hne; exact absurd rfl hne
  | some root =>
    rw [hroot] at hne
    simp only [] at hne ⊢
    refine ⟨?_, ?_⟩
    · cases hp : passes self._doc.translationUnit (cursor.blockNumber + 1)
          (cursor.columnNumber + 1) root with
      | false => rw [collect_of_fails _ root hp] at hne; exact absurd rfl hne
      | true => rw [collect_of_passes _ root hp]; rfl
    · intro last hl
      refine ⟨?_, ?_⟩
      · have hmem : last ∈ collect (passes self._doc.translationUnit (cursor.blockNumber + 1)
            (cursor.columnNumber + 1)) root := List.mem_of_mem_getLast? hl
        have := collect_all_pass _ root last hmem
        simpa [passes] using this
      · intro c hc
        have := collect_last_children_fail _ root last hl c hc
        simpa [passes] using this

/-- C16, at the scenario document with the cursor at line 1, column 18: the
path starts at the translation unit and ends at the return statement, whose
child, the numeric literal, fails the span test. -/
theorem last_is_innermost_witness :
    (ASTPath.call (ASTPath.mk0 ⟨scenarioUnit (some translationUnitNode)⟩) ⟨0, 17⟩).2.head? =
      some translationUnitNode ∧
    (ASTPath.call (ASTPath.mk0 ⟨scenarioUnit (some translationUnitNode)⟩) ⟨0, 17⟩).2.getLast? =
      some returnStatement ∧
    ¬ spanContains (scenarioUnit (some translationUnitNode)) 1 18 numericLiteral :=
  have h := last_is_innermost (ASTPath.mk0 ⟨scenarioUnit (some translationUnitNode)⟩) ⟨0, 17⟩
    (fun h => absurd (congrArg List.length h) (by decide))
  ⟨h.1, rfl, (h.2 returnStatement rfl).2 numericLiteral (List.mem_cons_self _ _)⟩

/-! ## C14: the scenario `int f(){ return 0; }` -/

/-- C14 as stated fails: in the scenario document the character `0` is at column
17 and column 18 is the `;`.  With the cursor at line 1, column 18 the resolved
path ends with the return statement; the numeric literal, whose token ends at
column 18, is rejected by the strict end test.  Under the other reading of a
token end (the column of its last character) the path is shorter still.  Either
way the numeric literal is not in the result. -/
theorem scenario_column_18_misses_literal :
    (ASTPath.call (ASTPath.mk0 ⟨scenarioUnit (some translationUnitNode)⟩) ⟨0, 17⟩).2 =
      [translationUnitNode, functionDefinition, compoundStatement, returnStatement] ∧
    numericLiteral.kind ∉
      ((ASTPath.call (ASTPath.mk0 ⟨scenarioUnit (some translationUnitNode)⟩) ⟨0, 17⟩).2.map
        AST.kind) ∧
    (ASTPath.call (ASTPath.mk0 ⟨scenarioUnitInclusive (some translationUnitNode)⟩) ⟨0, 17⟩).2 =
      [translationUnitNode, functionDefinition, compoundStatement] ∧
    numericLiteral.kind ∉
      ((ASTPath.call (ASTPath.mk0 ⟨scenarioUnitInclusive (some translationUnitNode)⟩)
        ⟨0, 17⟩).2.map AST.kind) :=
  ⟨rfl, by decide, rfl, by decide⟩

/-- C14, amended: in the scenario document, with the end of a token one past its
last character, resolving the path with the cursor at line 1, column 17 (the
column of the character `0`) returns exactly translation-unit,
function-definition, compound-statement, return-statement, numeric-literal, the
numeric literal last. -/
theorem scenario_path_at_literal :
    (ASTPath.call (ASTPath.mk0 ⟨scenarioUnit (some translationUnitNode)⟩) ⟨0, 16⟩).2 =
      [translationUnitNode, functionDefinition, compoundStatement, returnStatement,
        numericLiteral] ∧
    (ASTPath.call (ASTPath.mk0 ⟨scenarioUnit (some translationUnitNode)⟩) ⟨0, 16⟩).2.getLast? =
      some numericLiteral :=
  ⟨rfl, rfl⟩

/-! ## C18: the preconditions of `cursor(AST *)` -/

/-- C18: every node `n` returned by `ASTPath::operator()`, its token indices
being `unsigned` values, has `firstToken >= 1` and `lastToken - 1 >=
firstToken`; the unsigned subtraction `lastToken - 1` in
`QuickFixOperation::cursor(AST *)` does not wrap (it is not `2^32 - 1`), the
two token indices that function queries lie inside the span of the node, and for
a node with `lastToken == 0` the subtraction gives `2^32 - 1`. -/
theorem path_nodes_meet_cursor_preconditions (self : ASTPath) (cursor : QTextCursor)
    (n : AST) (hn : n ∈ (ASTPath.call self cursor).2) (hrange : n.lastToken < 2 ^ 32) :
    1 ≤ n.firstToken ∧ n.firstToken ≤ n.lastToken - 1 ∧ n.lastToken ≠ 0 ∧
    usub n.lastToken 1 = n.lastToken - 1 ∧ usub n.lastToken 1 ≠ 2 ^ 32 - 1 ∧
    (n.firstToken ≤ usub n.lastToken 1 ∧ usub n.lastToken 1 < n.lastToken) ∧
    (∀ (ctx : OperationContext), QuickFixOperation.cursor ctx n =
      { anchor := usub (uadd (ctx.blockPosition
            (usub (ctx.unit.getTokenStartPosition n.firstToken).1 1))
            (ctx.unit.getTokenStartPosition n.firstToken).2) 1,
        position := usub (uadd (ctx.blockPosition
            (usub (ctx.unit.getTokenEndPosition (n.lastToken - 1)).1 1))
            (ctx.unit.getTokenEndPosition (n.lastToken - 1)).2) 1 }) ∧
    (∀ (k f : Nat) (cs : List AST), usub (AST.node k f 0 cs).lastToken 1 = 2 ^ 32 - 1) := by
  have hpass : passes self._doc.translationUnit (cursor.blockNumber + 1)
      (cursor.columnNumber + 1) n = true := by
    rw [call_result] at hn
    cases hroot : self._doc.translationUnit.ast with
    | none => rw [hroot] at hn; exact absurd hn (List.not_mem_nil n)
    | some root => rw [hroot] at hn; exact collect_all_pass _ root n hn
  have hspan : 0 < n.firstToken ∧ n.firstToken < n.lastToken := by
    have h : spanContains self._doc.translationUnit (cursor.blockNumber + 1)
        (cursor.columnNumber + 1) n := by simpa [passes] using hpass
    exact h.1
  have hsub : usub n.lastToken 1 = n.lastToken - 1 := usub_one _ (by omega) (by omega)
  refine ⟨by omega, by omega, by omega, hsub, ?_, ?_, ?_, ?_⟩
  · rw [hsub]; omega
  · rw [hsub]; omega
  · intro ctx
    unfold QuickFixOperation.cursor
    simp only []
    rw [hsub]
  · intro k f cs
    show usub 0 1 = 2 ^ 32 - 1
    decide

/-- C18, at the numeric literal of the scenario path: token indices 7 and 8,
`lastToken - 1` is 7. -/
theorem path_nodes_meet_cursor_preconditions_witness :
    1 ≤ numericLiteral.firstToken ∧ numericLiteral.firstToken ≤ numericLiteral.lastToken - 1 ∧
    usub numericLiteral.lastToken 1 = 7 :=
  have h := path_nodes_meet_cursor_preconditions
    (ASTPath.mk0 ⟨scenarioUnit (some translationUnitNode)⟩) ⟨0, 16⟩ numericLiteral
    (by rw [show (ASTPath.call (ASTPath.mk0 ⟨scenarioUnit (some translationUnitNode)⟩)
        ⟨0, 16⟩).2 = [translationUnitNode, functionDefinition, compoundStatement,
          returnStatement, numericLiteral] from rfl]
        simp)
    (by decide)
  ⟨h.1, h.2.1, h.2.2.2.1⟩

/-! ## C19: the resolver and `cursor(AST *)` agree -/

/-- C19: for a node of the resolved path whose first token starts and whose
last token ends on the target line (block `blockNumber`, so `line - 1 =
blockNumber`), with one-based columns and offsets that are valid `int`
positions, the selection of `QuickFixOperation::cursor(AST *)` has anchor
`blockPos(line-1) + startColumn - 1` and head `blockPos(line-1) + endColumn -
1`, and the target offset `blockPos(line-1) + column - 1` satisfies `anchor <=
targetOffset < head`. -/
theorem cursor_selection_contains_target (self : ASTPath) (cursor : QTextCursor)
    (ctx : OperationContext) (n : AST)
    (hunit : ctx.unit = self._doc.translationUnit)
    (hn : n ∈ (ASTPath.call self cursor).2)
    (hstart : (self._doc.translationUnit.getTokenStartPosition n.firstToken).1 =
      cursor.blockNumber + 1)
    (hend : (self._doc.translationUnit.getTokenEndPosition (n.lastToken - 1)).1 =
      cursor.blockNumber + 1)
    (hcol : 1 ≤ (self._doc.translationUnit.getTokenStartPosition n.firstToken).2)
    (hrange : n.lastToken < 2 ^ 32)
    (hline : cursor.blockNumber + 1 < 2 ^ 32)
    (hfit : ctx.blockPosition cursor.blockNumber +
      (self._doc.translationUnit.getTokenEndPosition (n.lastToken - 1)).2 < 2 ^ 31) :
    (QuickFixOperation.cursor ctx n).anchor =
      ctx.blockPosition cursor.blockNumber +
        (self._doc.translationUnit.getTokenStartPosition n.firstToken).2 - 1 ∧
    (QuickFixOperation.cursor ctx n).position =
      ctx.blockPosition cursor.blockNumber +
        (self._doc.translationUnit.getTokenEndPosition (n.lastToken - 1)).2 - 1 ∧
    (QuickFixOperation.cursor ctx n).anchor ≤
      ctx.blockPosition cursor.blockNumber + (cursor.columnNumber + 1) - 1 ∧
    ctx.blockPosition cursor.blockNumber + (cursor.columnNumber + 1) - 1 <
      (QuickFixOperation.cursor ctx n).position := by
  have hpass : passes self._doc.translationUnit (cursor.blockNumber + 1)
      (cursor.columnNumber + 1) n = true := by
    rw [call_result] at hn
    cases hroot : self._doc.translationUnit.ast with
    | none => rw [hroot] at hn; exact absurd hn (List.not_mem_nil n)
    | some root => rw [hroot] at hn; exact collect_all_pass _ root n hn
  have hspan : spanContains self._doc.translationUnit (cursor.blockNumber + 1)
      (cursor.columnNumber + 1) n := by simpa [passes] using hpass
  obtain ⟨⟨hf, hfl⟩, hs, he⟩ := hspan
  have hsub : usub n.lastToken 1 = n.lastToken - 1 := usub_one _ (by omega) (by omega)
  have hl : usub (cursor.blockNumber + 1) 1 = cursor.blockNumber := by
    rw [usub_one _ (by omega) (by omega), Nat.add_sub_cancel]
  have hcs : (self._doc.translationUnit.getTokenStartPosition n.firstToken).2 ≤
      cursor.columnNumber + 1 := by omega
  have hce : cursor.columnNumber + 1 <
      (self._doc.translationUnit.getTokenEndPosition (n.lastToken - 1)).2 := by omega
  have hanchor : (QuickFixOperation.cursor ctx n).anchor =
      ctx.blockPosition cursor.blockNumber +
        (self._doc.translationUnit.getTokenStartPosition n.firstToken).2 - 1 := by
    unfold QuickFixOperation.cursor
    simp only []
    rw [hunit, hstart, hl, uadd_of_lt _ _ (by omega), usub_one _ (by omega) (by omega)]
  have hhead : (QuickFixOperation.cursor ctx n).position =
      ctx.blockPosition cursor.blockNumber +
        (self._doc.translationUnit.getTokenEndPosition (n.lastToken - 1)).2 - 1 := by
    unfold QuickFixOperation.cursor
    simp only []
    rw [hunit, hsub, hend, hl, uadd_of_lt _ _ (by omega), usub_one _ (by omega) (by omega)]
  rw [hanchor, hhead]
  refine ⟨rfl, rfl, ?_, ?_⟩ <;> omega

/-- C19, at the return statement of the scenario path with the cursor at line 1,
column 17: the selection runs from offset 9 to offset 18 and holds the target
offset 16. -/
theorem cursor_selection_contains_target_witness :
    QuickFixOperation.cursor scenarioContext returnStatement = { anchor := 9, position := 18 } ∧
    (QuickFixOperation.cursor scenarioContext returnStatement).anchor ≤ 0 + (16 + 1) - 1 ∧
    0 + (16 + 1) - 1 < (QuickFixOperation.cursor scenarioContext returnStatement).position :=
  have h := cursor_selection_contains_target
    (ASTPath.mk0 ⟨scenarioUnit (some translationUnitNode)⟩) ⟨0, 16⟩ scenarioContext
    returnStatement rfl
    (by rw [show (ASTPath.call (ASTPath.mk0 ⟨scenarioUnit (some translationUnitNode)⟩)
        ⟨0, 16⟩).2 = [translationUnitNode, functionDefinition, compoundStatement,
          returnStatement, numericLiteral] from rfl]
        simp)
    rfl rfl (by decide) (by decide) (by decide) (by decide)
  ⟨by decide, h.2.2.1, h.2.2.2⟩

/-! ## C15: a target between two declarations -/

/-- C15: in a translation unit whose children include two consecutive
declarations `d1`, `d2` with token spans, in a document whose token positions
follow the token order, for a target at or after the end position of the last
token of `d1` and strictly before the start position of the first token of
`d2`, the resolved path is exactly the one-element sequence holding the
translation-unit node.  A target exactly at the end position of the last token
of `d1` is included. -/
theorem path_between_declarations (self : ASTPath) (cursor : QTextCursor)
    (k f l : Nat) (before after : List AST) (d1 d2 : AST)
    (hroot : self._doc.translationUnit.ast =
      some (AST.node k f l (before ++ d1 :: d2 :: after)))
    (hordered : tokensOrdered self._doc.translationUnit)
    (hfirst : 0 < f ∧ f ≤ d1.firstToken)
    (hlast : d2.lastToken ≤ l)
    (hd1 : d1.firstToken < d1.lastToken)
    (hd2 : d2.firstToken < d2.lastToken)
    (hconsecutive : d1.lastToken ≤ d2.firstToken)
    (hbefore : ∀ c ∈ before, c.lastToken ≤ d1.lastToken)
    (hafter : ∀ c ∈ after, d2.firstToken ≤ c.firstToken)
    (hpastEnd : posLe (self._doc.translationUnit.getTokenEndPosition (d1.lastToken - 1))
      (cursor.blockNumber + 1, cursor.columnNumber + 1))
    (hbeforeStart : posLt (cursor.blockNumber + 1, cursor.columnNumber + 1)
      (self._doc.translationUnit.getTokenStartPosition d2.firstToken)) :
    (ASTPath.call self cursor).2 = [AST.node k f l (before ++ d1 :: d2 :: after)] := by
  rw [call_result, hroot]
  simp only []
  have hE := fun i j (h : i ≤ j) => (hordered i j h).2.1
  have hS := fun i j (h : i ≤ j) => (hordered i j h).1
  have hSE := fun i j (h : i ≤ j) => (hordered i j h).2.2
  unfold posLe at hE hS hSE hpastEnd
  unfold posLt at hbeforeStart
  simp only [] at hpastEnd hbeforeStart
  have hrootPass : passes self._doc.translationUnit (cursor.blockNumber + 1)
      (cursor.columnNumber + 1) (AST.node k f l (before ++ d1 :: d2 :: after)) = true := by
    have h1 := hS f d1.firstToken hfirst.2
    have h2 := hSE d1.firstToken (d1.lastToken - 1) (by omega)
    have h3 := hSE d2.firstToken (d2.lastToken - 1) (by omega)
    have h4 := hE (d2.lastToken - 1) (l - 1) (by omega)
    simp only [passes, spanContains, AST.firstToken, AST.lastToken, decide_eq_true_eq]
    refine ⟨⟨hfirst.1, by omega⟩, ?_, ?_⟩ <;> omega
  have hfail : ∀ c ∈ before ++ d1 :: d2 :: after,
      passes self._doc.translationUnit (cursor.blockNumber + 1) (cursor.columnNumber + 1) c
        = false := by
    intro c hc
    simp only [passes, spanContains, decide_eq_false_iff_not]
    rintro ⟨⟨hc0, hc1⟩, hcs, hce⟩
    rcases List.mem_append.mp hc with hb | hb
    · have h1 := hE (c.lastToken - 1) (d1.lastToken - 1) (by have := hbefore c hb; omega)
      omega
    · rcases List.mem_cons.mp hb with hb | hb
      · rw [hb] at hce; omega
      · rcases List.mem_cons.mp hb with hb | hb
        · rw [hb] at hcs; omega
        · have h1 := hS d2.firstToken c.firstToken (hafter c hb)
          omega
  rw [collect_of_passes _ _ hrootPass]
  show _ :: collectList _ (before ++ d1 :: d2 :: after) = _
  rw [collectList_of_all_fail _ _ hfail]

/-- The sample documents of one-character tokens have ordered token positions. -/
theorem lineOfTokens_ordered (count : Nat) (root : Option AST) :
    tokensOrdered (lineOfTokens count root) := by
  intro i j hij
  simp only [lineOfTokens, posLe]
  refine ⟨?_, ?_, ?_⟩ <;> right <;> constructor <;> first | trivial | omega

/-- C15, at `twoFunctions` with the cursor at line 1, column 4, exactly the end
position of the last token of the first declaration. -/
theorem path_between_declarations_witness :
    (ASTPath.call (ASTPath.mk0 ⟨lineOfTokens 4 (some twoFunctions)⟩) ⟨0, 3⟩).2 =
      [twoFunctions] :=
  path_between_declarations (ASTPath.mk0 ⟨lineOfTokens 4 (some twoFunctions)⟩) ⟨0, 3⟩
    0 1 5 [] [] (AST.node 1 1 3 [AST.node 2 2 3 []]) (AST.node 1 3 5 [AST.node 2 4 5 []])
    rfl (lineOfTokens_ordered 4 _) (by decide) (by decide) (by decide) (by decide) (by decide)
    (by intro c hc; exact absurd hc (List.not_mem_nil c))
    (by intro c hc; exact absurd hc (List.not_mem_nil c))
    (by unfold posLe; decide) (by unfold posLt; decide)

/-! ## Further facts about the collector -/

theorem startCompletion_ret_of_empty (self : CPPQuickFixCollector) (editable : ITextEditable)
    (h : self._quickFixes = []) :
    (CPPQuickFixCollector.startCompletion self editable).ret = -1 := by
  unfold CPPQuickFixCollector.startCompletion
  simp only []
  by_cases hrev : editable.widget.semanticInfo.revision ≠ editable.widget.documentRevision
  · rw [if_pos hrev]
  · rw [if_neg hrev]
    cases editable.widget.semanticInfo.doc with
    | none => rfl
    | some doc => simp [h]

theorem stepCollector_no_growth (self next : CPPQuickFixCollector) (call : CollectorCall)
    (h : stepCollector self call = some next) :
    next._quickFixes = self._quickFixes ∨ next._quickFixes = [] := by
  cases call with
  | startCompletion editable =>
    simp only [stepCollector, Option.some.injEq] at h
    left
    rw [← h]
    exact startCompletion_keeps_list self editable
  | completions out =>
    simp only [stepCollector, Option.some.injEq] at h
    left; rw [← h]; rfl
  | complete item =>
    simp only [stepCollector] at h
    left
    cases hc : CPPQuickFixCollector.complete self item <;> rw [hc] at h <;> simp at h <;>
      rw [h]
  | cleanup =>
    simp only [stepCollector, Option.some.injEq] at h
    right; rw [← h]; rfl

theorem runCollector_keeps_empty (calls : List CollectorCall) :
    ∀ (self final : CPPQuickFixCollector), self._quickFixes = [] →
      runCollector self calls = some final → final._quickFixes = [] := by
  induction calls with
  | nil =>
    intro self final h hrun
    simp only [runCollector, Option.some.injEq] at hrun
    rw [← hrun]; exact h
  | cons call rest ih =>
    intro self final h hrun
    rw [runCollector] at hrun
    cases hstep : stepCollector self call with
    | none => rw [hstep] at hrun; simp at hrun
    | some next =>
      rw [hstep] at hrun
      refine ih next final ?_ hrun
      rcases stepCollector_no_growth self next call hstep with h1 | h1
      · rw [h1]; exact h
      · exact h1

theorem runCollector_returns (calls : List CollectorCall) :
    ∀ self : CPPQuickFixCollector, self._quickFixes = [] →
      (∀ item, CollectorCall.complete item ∈ calls → 0 ≤ item.data) →
      (runCollector self calls).isSome = true := by
  induction calls with
  | nil => intro self _ _; rfl
  | cons call rest ih =>
    intro self h hidx
    rw [runCollector]
    have hstep : ∃ next, stepCollector self call = some next := by
      cases call with
      | startCompletion editable => exact ⟨_, rfl⟩
      | completions out => exact ⟨_, rfl⟩
      | complete item =>
        refine ⟨self, ?_⟩
        have h0 : 0 ≤ item.data := hidx item (List.mem_cons_self _ _)
        simp only [stepCollector]
        rw [(complete_cases self item).2.1 (by rw [h]; simpa using h0)]
      | cleanup => exact ⟨_, rfl⟩
    obtain ⟨next, hnext⟩ := hstep
    rw [hnext]
    refine ih next ?_ (fun item hi => hidx item (List.mem_cons_of_mem _ hi))
    rcases stepCollector_no_growth self next call hnext with h1 | h1
    · rw [h1]; exact h
    · exact h1

/-! ## C17: nothing ever enters the pending list -/

/-- C17: no call on a collector adds to the pending operation list.  A sequence
of `startCompletion`, `completions`, `complete` and `cleanup` calls on a
freshly constructed collector returns normally whenever the indices handed to
`complete` are non-negative, and in every state it reaches the pending list is
empty, `startCompletion` returns -1 for every editor, document and cursor,
`completions` appends nothing and `complete` applies nothing. -/
theorem pending_list_stays_empty (calls : List CollectorCall) :
    ((∀ item, CollectorCall.complete item ∈ calls → 0 ≤ item.data) →
      (runCollector CPPQuickFixCollector.new calls).isSome = true) ∧
    (∀ final, runCollector CPPQuickFixCollector.new calls = some final →
      final._quickFixes = [] ∧
      (∀ editable, (CPPQuickFixCollector.startCompletion final editable).ret = -1) ∧
      (∀ out, (CPPQuickFixCollector.completions final out).2 = out) ∧
      (∀ item op textCursor, CPPQuickFixCollector.complete final item ≠
        CPPQuickFixCollector.CompleteOutcome.applied op textCursor)) ∧
    (∀ (self next : CPPQuickFixCollector) (call : CollectorCall),
      stepCollector self call = some next →
        next._quickFixes = self._quickFixes ∨ next._quickFixes = []) := by
  refine ⟨runCollector_returns calls CPPQuickFixCollector.new rfl, ?_, stepCollector_no_growth⟩
  intro final hrun
  have hempty : final._quickFixes = [] :=
    runCollector_keeps_empty calls CPPQuickFixCollector.new final rfl hrun
  refine ⟨hempty, ?_, ?_, ?_⟩
  · intro editable
    exact startCompletion_ret_of_empty final editable hempty
  · intro out
    rw [completions_eq, hempty]
    simp [itemsOf]
  · intro item op textCursor
    by_cases hneg : item.data < 0
    · rw [(complete_cases final item).2.2 hneg]
      simp
    · rw [(complete_cases final item).2.1 (by rw [hempty]; simp; omega)]
      simp

/-- C17, at a concrete run: a resolution with matching revisions and the cursor
inside a node, a listing, a selection and a cleanup return normally, leave the
pending list empty, and a further resolution returns -1. -/
theorem pending_list_stays_empty_witness :
    (runCollector CPPQuickFixCollector.new sampleCalls).isSome = true ∧
    (∀ final, runCollector CPPQuickFixCollector.new sampleCalls = some final →
      final._quickFixes = [] ∧
      (CPPQuickFixCollector.startCompletion final
        ⟨sampleEditor 4 4 (some ⟨lineOfTokens 4 (some nestedTree)⟩), 7⟩).ret = -1) :=
  ⟨(pending_list_stays_empty sampleCalls).1 (by
      intro item hitem
      simp [sampleCalls] at hitem
      rw [hitem]),
    fun final h =>
      ⟨((pending_list_stays_empty sampleCalls).2.1 final h).1,
        ((pending_list_stays_empty sampleCalls).2.1 final h).2.1 _⟩⟩

end CppQuickFix
